import Mathlib

/-!
Verification of the translation pipeline in scripts/translate.ts
(the current version: hash-based cache with TranslationEntry records,
override table, punctuation normalization).

Modelling conventions.
JavaScript strings are modelled as lists of characters (`Str`), and JSON
values as the inductive type `JVal`.  Plain JS objects are association
lists that keep insertion order, exactly as JS object literals do for
string keys; property assignment `o[k] = v` is `setKey` (update in place
when the key exists, append otherwise).  The md5 digest is kept as an
explicit function parameter of every definition that hashes: the code
only ever compares digests for equality, so no property of the concrete
md5 algorithm is needed anywhere.
-/

set_option maxHeartbeats 1000000
set_option synthInstance.maxHeartbeats 400000
namespace TranslateTs

/-! ## Part 1: the shallow embedding (definitions)

The two lemma blocks about beqJVal that appear here are part of the
embedding itself: they feed the DecidableEq instance that the JS `==`
comparisons in the definitions below (and concrete evaluation) rely on. -/

/-- A JavaScript string: a list of characters. -/
abbrev Str := List Char

/-- JSON values (the data manipulated by translate.ts). -/
inductive JVal : Type where
  | vStr (s : Str)
  | vNum (n : Int)
  | vBool (b : Bool)
  | vNull
  | vArr (elems : List JVal)
  | vObj (fields : List (Str × JVal))

mutual

/-- Structural boolean equality on JSON values. -/
def beqJVal : JVal → JVal → Bool
  | .vStr a, .vStr b => a == b
  | .vNum a, .vNum b => a == b
  | .vBool a, .vBool b => a == b
  | .vNull, .vNull => true
  | .vArr a, .vArr b => beqJList a b
  | .vObj a, .vObj b => beqJFields a b
  | _, _ => false

/-- Structural boolean equality on JSON arrays. -/
def beqJList : List JVal → List JVal → Bool
  | [], [] => true
  | x :: xs, y :: ys => beqJVal x y && beqJList xs ys
  | _, _ => false

/-- Structural boolean equality on JSON object field lists. -/
def beqJFields : List (Str × JVal) → List (Str × JVal) → Bool
  | [], [] => true
  | (k1, v1) :: xs, (k2, v2) :: ys => k1 == k2 && beqJVal v1 v2 && beqJFields xs ys
  | _, _ => false

end

mutual

theorem beqJVal_refl : ∀ a : JVal, beqJVal a a = true
  | .vStr _ => by simp [beqJVal]
  | .vNum _ => by simp [beqJVal]
  | .vBool _ => by simp [beqJVal]
  | .vNull => by simp [beqJVal]
  | .vArr xs => by simpa [beqJVal] using beqJList_refl xs
  | .vObj fs => by simpa [beqJVal] using beqJFields_refl fs

theorem beqJList_refl : ∀ xs : List JVal, beqJList xs xs = true
  | [] => by simp [beqJList]
  | x :: xs => by simp [beqJList, beqJVal_refl x, beqJList_refl xs]

theorem beqJFields_refl : ∀ xs : List (Str × JVal), beqJFields xs xs = true
  | [] => by simp [beqJFields]
  | (k, v) :: xs => by simp [beqJFields, beqJVal_refl v, beqJFields_refl xs]

end

mutual

theorem beqJVal_sound : ∀ a b : JVal, beqJVal a b = true → a = b
  | .vStr _, b => by cases b <;> simp [beqJVal]
  | .vNum _, b => by cases b <;> simp [beqJVal]
  | .vBool _, b => by cases b <;> simp [beqJVal]
  | .vNull, b => by cases b <;> simp [beqJVal]
  | .vArr xs, b => by
      cases b <;> simp [beqJVal]
      exact fun h => beqJList_sound xs _ h
  | .vObj fs, b => by
      cases b <;> simp [beqJVal]
      exact fun h => beqJFields_sound fs _ h

theorem beqJList_sound : ∀ a b : List JVal, beqJList a b = true → a = b
  | [], b => by cases b <;> simp [beqJList]
  | x :: xs, b => by
      cases b with
      | nil => simp [beqJList]
      | cons y ys =>
          simp only [beqJList, Bool.and_eq_true]
          exact fun ⟨h1, h2⟩ => by
            rw [beqJVal_sound x y h1, beqJList_sound xs ys h2]

theorem beqJFields_sound : ∀ a b : List (Str × JVal), beqJFields a b = true → a = b
  | [], b => by cases b <;> simp [beqJFields]
  | (k, v) :: xs, b => by
      cases b with
      | nil => simp [beqJFields]
      | cons p ys =>
          obtain ⟨k2, v2⟩ := p
          simp only [beqJFields, Bool.and_eq_true, beq_iff_eq]
          exact fun ⟨⟨h0, h1⟩, h2⟩ => by
            rw [h0, beqJVal_sound v v2 h1, beqJFields_sound xs ys h2]

end

instance : DecidableEq JVal := fun a b =>
  if h : beqJVal a b = true then .isTrue (beqJVal_sound a b h)
  else .isFalse (fun e => h (e ▸ beqJVal_refl a))

/-- A flattened JS object: an ordered association list. -/
abbrev FlatMap := List (Str × JVal)

/-- First-match association lookup: JS property read `m[k]`
(`none` models `undefined`). -/
def lookupL {α : Type} : List (Str × α) → Str → Option α
  | [], _ => none
  | (k, v) :: rest, key => if k = key then some v else lookupL rest key

/-- JS property assignment `m[k] = v`: update in place if the key is
present (keeping its position), append otherwise. -/
def setKey (m : FlatMap) (k : Str) (v : JVal) : FlatMap :=
  if m.any (fun p => p.1 = k) then
    m.map (fun p => if p.1 = k then (k, v) else p)
  else m ++ [(k, v)]

/-- `Object.assign(dst, src)`: copy every property of `src` onto `dst`
in order. -/
def objAssign (dst src : FlatMap) : FlatMap :=
  src.foldl (fun a p => setKey a p.1 p.2) dst

/-- The literal property name used by TranslationEntry records. -/
def keyTranslation : Str := "translation".toList

/-- The literal property name used by TranslationEntry records. -/
def keySourceHash : Str := "sourceHash".toList

/-- isTranslationEntry from translate.ts:
`typeof obj === 'object' && obj !== null && 'translation' in obj && 'sourceHash' in obj`.
(Arrays have no such named properties, so only plain objects qualify.) -/
def isTranslationEntry : JVal → Bool
  | .vObj fields =>
      (fields.any (fun p => p.1 = keyTranslation)) &&
      (fields.any (fun p => p.1 = keySourceHash))
  | _ => false

/-- A non-null, non-array object (the values flattenObject recurses into). -/
def isPlainObj : JVal → Bool
  | .vObj _ => true
  | _ => false

/-- The terminal-leaf test of flattenObject in translate.ts:
TranslationEntry shape, non-object, null, or array. -/
def isFlattenLeaf (v : JVal) : Bool := isTranslationEntry v || !isPlainObj v

/-- Dot-joined key path: `prefix ? prefix + '.' + key : key`. -/
def joinKey (pre k : Str) : Str := if pre.isEmpty then k else pre ++ '.' :: k

mutual

/-- flattenObject from translate.ts applied to a value with a prefix.
For non-object inputs the `for..in` loop body never runs, giving `{}`. -/
def flattenVal : JVal → Str → FlatMap
  | .vObj fields, pre => flattenFields fields pre []
  | _, _ => []

/-- The `for (const key in obj)` loop of flattenObject, with the result
object threaded as an accumulator.  Leaves are written with
`result[newKey] = value`; recursive results are merged with
`Object.assign(result, flattenObject(value, newKey))`. -/
def flattenFields : List (Str × JVal) → Str → FlatMap → FlatMap
  | [], _, acc => acc
  | (k, v) :: rest, pre, acc =>
      if isFlattenLeaf v then
        flattenFields rest pre (setKey acc (joinKey pre k) v)
      else
        flattenFields rest pre (objAssign acc (flattenVal v (joinKey pre k)))

end

/-- Top-level flattenObject (prefix defaults to the empty string). -/
def flattenObject (v : JVal) : FlatMap := flattenVal v []

/-- JS `String.prototype.split('.')`: `"".split('.') = [""]`,
`"a.b".split('.') = ["a","b"]`. -/
def splitDots : Str → List Str
  | [] => [[]]
  | c :: rest =>
      if c = '.' then [] :: splitDots rest
      else
        match splitDots rest with
        | [] => [[c]]
        | l :: ls => (c :: l) :: ls

/-- JS truthiness of a JSON value (`undefined` never reaches this test
in unflattenObject's reduce). -/
def truthy : JVal → Bool
  | .vStr s => !s.isEmpty
  | .vNum n => n != 0
  | .vBool b => b
  | .vNull => false
  | .vArr _ => true
  | .vObj _ => true

/-- One pass of unflattenObject's `keys.reduce` for a single flat key:
walk the path, materialising `acc[k] = acc[k] || {}` at inner steps and
assigning the value at the last step.  When an inner step meets a truthy
non-object the JS code would fail to descend (and subsequently throw);
that branch is unreachable on maps produced by flattenObject and is
modelled as leaving the map unchanged. -/
def insertPath : FlatMap → List Str → JVal → FlatMap
  | m, [], _ => m
  | m, [k], v => setKey m k v
  | m, k :: k2 :: rest, v =>
      match lookupL m k with
      | some (.vObj sub) => setKey m k (.vObj (insertPath sub (k2 :: rest) v))
      | some w =>
          if truthy w then m
          else setKey m k (.vObj (insertPath [] (k2 :: rest) v))
      | none => setKey m k (.vObj (insertPath [] (k2 :: rest) v))

/-- The `for key in obj` loop of unflattenObject. -/
def unflattenList (m : FlatMap) : FlatMap :=
  m.foldl (fun acc p => insertPath acc (splitDots p.1) p.2) []

/-- unflattenObject from translate.ts. -/
def unflattenObject (m : FlatMap) : JVal :=
  if m.isEmpty then .vObj [] else .vObj (unflattenList m)

/-- A TranslationEntry literal `{translation: t, sourceHash: h}`. -/
def mkEntry (t h : Str) : JVal :=
  .vObj [(keyTranslation, .vStr t), (keySourceHash, .vStr h)]

/-- JS property read `v.k` on an arbitrary value (undefined on non-objects). -/
def getProp : JVal → Str → Option JVal
  | .vObj fields, k => lookupL fields k
  | _, _ => none

/-- The cache test of run(): the cached value exists, has TranslationEntry
shape, and its sourceHash strictly equals the md5 of the current source
text (`!(!isTranslationEntry(cachedEntry) || cachedEntry.sourceHash !== sourceHash)`). -/
def entryUpToDate (md5 : Str → Str) (ce : Option JVal) (s : Str) : Bool :=
  match ce with
  | some e => isTranslationEntry e && (getProp e keySourceHash == some (.vStr (md5 s)))
  | none => false

/-- The `sourceKeys.forEach` scan of run(): starting from
`finalTranslations = {...cachedTranslations}`, copy non-string source
values directly, keep up-to-date cached entries, and collect the
(key, text) batch of strings that need (re)translation.  Returns
(finalTranslations, textsToTranslate). -/
def scanKeys (md5 : Str → Str) (src cache : FlatMap) : FlatMap × List (Str × Str) :=
  src.foldl
    (fun st p =>
      match p.2 with
      | .vStr s =>
          if entryUpToDate md5 (lookupL cache p.1) s then st
          else (st.1, st.2 ++ [(p.1, s)])
      | v => (setKey st.1 p.1 v, st.2))
    (cache, [])

/-- The merge step of run() on provider success:
`finalTranslations[key] = {translation: translatedTexts[index], sourceHash: md5(text)}`
for each batch item.  An out-of-range index would be JS `undefined`; it is
modelled as the empty string and excluded by length hypotheses in every
theorem below. -/
def mergeResults (md5 : Str → Str) (ft : FlatMap) (batch : List (Str × Str))
    (trs : List Str) : FlatMap :=
  batch.enum.foldl
    (fun a p => setKey a p.2.1 (mkEntry (trs.getD p.1 []) (md5 p.2.2))) ft

/-- The override table: namespace → language → key → forced string. -/
abbrev OvTable := List (Str × List (Str × List (Str × Str)))

/-- applyOverrides from translate.ts: for each (key, forced) entry of the
table slice for (namespace, language), replace the translation only when
the key is currently defined in the final map and the current source
value for the key is a string; the new hash is md5 of the source text. -/
def applyOverrides (md5 : Str → Str) (ft : FlatMap) (ov : OvTable)
    (ns lang : Str) (src : FlatMap) : FlatMap :=
  match lookupL ov ns with
  | none => ft
  | some nsOv =>
      match lookupL nsOv lang with
      | none => ft
      | some langOv =>
          langOv.foldl
            (fun a p =>
              match lookupL a p.1 with
              | none => a
              | some _ =>
                  match lookupL src p.1 with
                  | some (.vStr s) => setKey a p.1 (mkEntry p.2 (md5 s))
                  | _ => a)
            ft

/-- The re-ordering step of run(): walk the source keys in order and emit
the final value for each key that is defined. -/
def reorderBySource (src ft : FlatMap) : FlatMap :=
  src.foldl
    (fun acc p =>
      match lookupL ft p.1 with
      | some v => acc ++ [(p.1, v)]
      | none => acc)
    []

/-- The languages DeepL supports as targets (current translate.ts list,
which includes tr). -/
def deeplSupportedLangs : List Str :=
  ["bg", "cs", "da", "de", "el", "en", "es", "et", "fi", "fr",
   "hu", "id", "it", "ja", "ko", "lt", "lv", "nb", "nl", "pl", "pt",
   "ro", "ru", "sk", "sl", "sv", "tr", "uk", "zh"].map String.toList

/-- ASCII lower-casing (JS toLowerCase on the language codes involved). -/
def lowerStr (s : Str) : Str := s.map Char.toLower

/-- The provider-dispatch of run(): DeepL first for supported languages,
Google as fallback only when a Google key exists; unsupported languages go
straight to Google when a key exists and are skipped otherwise.  `none`
is the no-result sentinel of both adapters. -/
def chooseTranslations (lang : Str) (deepl google : Option (List Str))
    (hasGoogleKey : Bool) : Option (List Str) :=
  if deeplSupportedLangs.contains (lowerStr lang) then
    match deepl with
    | some r => some r
    | none => if hasGoogleKey then google else none
  else if hasGoogleKey then google else none

/-- The whole non-base-language body of run()'s loop, from the scan to the
flat ordered map that gets unflattened and written.  `provider` is the
final value of `translatedTexts` after the API-calls section.  Note that
when the batch is empty the code writes the reordered map immediately and
never reaches applyOverrides. -/
def processLanguage (md5 : Str → Str) (src cache : FlatMap) (ov : OvTable)
    (ns lang : Str) (provider : Option (List Str)) : FlatMap :=
  let st := scanKeys md5 src cache
  if st.2.isEmpty then reorderBySource src st.1
  else
    let ft2 :=
      match provider with
      | none => st.1
      | some trs => mergeResults md5 st.1 st.2 trs
    reorderBySource src (applyOverrides md5 ft2 ov ns lang src)

/-- The base-language branch of run()'s loop: wrap every string source
value in a TranslationEntry whose hash is its own md5; copy non-strings. -/
def processBaseLanguage (md5 : Str → Str) (src : FlatMap) : FlatMap :=
  src.foldl
    (fun a p =>
      match p.2 with
      | .vStr s => setKey a p.1 (mkEntry s (md5 s))
      | v => setKey a p.1 v)
    []

/-- One iteration of run()'s language loop, producing the flat ordered
map written for that language. -/
def runLanguage (md5 : Str → Str) (src : FlatMap) (ov : OvTable) (ns : Str)
    (baseLang : Str) (cache : FlatMap) (lang : Str)
    (provider : Option (List Str)) : FlatMap :=
  if lowerStr lang = baseLang then processBaseLanguage md5 src
  else processLanguage md5 src cache ov ns lang provider

/-- run()'s language loop over every requested language: every language
produces an output file (no iteration aborts the loop). -/
def runAllLanguages (md5 : Str → Str) (src : FlatMap) (ov : OvTable)
    (ns baseLang : Str) (langs : List Str) (cacheOf : Str → FlatMap)
    (providerOf : Str → Option (List Str)) : List FlatMap :=
  langs.map (fun lang => runLanguage md5 src ov ns baseLang (cacheOf lang) lang (providerOf lang))

/-- The whitespace class of JS `\s`, `trim()` and friends (ASCII part plus
the common Unicode members; only ASCII whitespace appears in any claim). -/
def jsSpaceChars : List Char :=
  [' ', '\t', '\n', '\r', Char.ofNat 0x0b, Char.ofNat 0x0c,
   Char.ofNat 0xa0, Char.ofNat 0x1680, Char.ofNat 0x2000, Char.ofNat 0x2001,
   Char.ofNat 0x2002, Char.ofNat 0x2003, Char.ofNat 0x2004, Char.ofNat 0x2005,
   Char.ofNat 0x2006, Char.ofNat 0x2007, Char.ofNat 0x2008, Char.ofNat 0x2009,
   Char.ofNat 0x200a, Char.ofNat 0x2028, Char.ofNat 0x2029, Char.ofNat 0x202f,
   Char.ofNat 0x205f, Char.ofNat 0x3000, Char.ofNat 0xfeff]

/-- Whether a character is JS whitespace. -/
def isJsSpace (c : Char) : Bool := jsSpaceChars.contains c

/-- Leading-whitespace removal. -/
def trimLeft (s : Str) : Str := s.dropWhile isJsSpace

/-- Trailing-whitespace removal. -/
def trimRight (s : Str) : Str := (s.reverse.dropWhile isJsSpace).reverse

/-- JS `String.prototype.trim()`. -/
def trimStr (s : Str) : Str := trimRight (trimLeft s)

/-- The trailing whitespace run of a text: `text.match(/\s*$/)[0]`. -/
def trailingWs (s : Str) : Str := (s.reverse.takeWhile isJsSpace).reverse

/-- `text.replace(/PAT\s*$/, '')` for a fixed whitespace-free pattern PAT:
if the text minus its trailing whitespace ends with PAT, drop PAT and that
whitespace, otherwise leave the text unchanged. -/
def stripSuffixWs (pat : Str) (s : Str) : Str :=
  let core := trimRight s
  if pat.isSuffixOf core then core.take (core.length - pat.length) else s

/-- `text.replace(/[.!?]\s*$/, '')`. -/
def stripPunctWs (s : Str) : Str :=
  let core := trimRight s
  match core.getLast? with
  | some c => if c = '.' || c = '!' || c = '?' then core.dropLast else s
  | none => s

/-- The horizontal ellipsis character U+2026. -/
def ellipsisChar : Char := Char.ofNat 0x2026

/-- The terminal-punctuation test of normalizeTranslationPunctuation:
last character one of `.?!`, or the trimmed source ends in `...` or `…`. -/
def sourceEndsWithPunct (srcT : Str) : Bool :=
  (match srcT.getLast? with
   | some c => c = '.' || c = '?' || c = '!'
   | none => false)
  || ("...".toList.isSuffixOf srcT) || ([ellipsisChar].isSuffixOf srcT)

/-- normalizeTranslationPunctuation from translate.ts. -/
def normalizeTranslationPunctuation (sourceText translatedText : Str) : Str :=
  let sourceTrimmed := trimStr sourceText
  let translatedTrimmed := trimStr translatedText
  if sourceTrimmed.isEmpty || translatedTrimmed.isEmpty then translatedText
  else if sourceEndsWithPunct sourceTrimmed then translatedText
  else
    let c1 := stripSuffixWs "...".toList translatedTrimmed
    let c2 := stripSuffixWs [ellipsisChar] c1
    let c3 := stripPunctWs c2
    c3 ++ trailingWs translatedText

/-- Abbreviation for the scan fold of run(). -/
def scanGo (md5 : Str → Str) (cache : FlatMap) :
    FlatMap × List (Str × Str) → Str × JVal → FlatMap × List (Str × Str) :=
  fun st p =>
    match p.2 with
    | .vStr s =>
        if entryUpToDate md5 (lookupL cache p.1) s then st
        else (st.1, st.2 ++ [(p.1, s)])
    | v => (setKey st.1 p.1 v, st.2)

/-- Abbreviation for the merge fold of run(). -/
def mergeGo (md5 : Str → Str) (trs : List Str) :
    FlatMap → Nat × (Str × Str) → FlatMap :=
  fun a p => setKey a p.2.1 (mkEntry (trs.getD p.1 []) (md5 p.2.2))

/-- The (namespace, language, key) lookup into the override table. -/
def ovLookup (ov : OvTable) (ns lang k : Str) : Option Str :=
  ((lookupL ov ns).bind (fun nsOv => lookupL nsOv lang)).bind
    (fun langOv => lookupL langOv k)

/-- Abbreviation for the override fold of applyOverrides. -/
def ovGo (md5 : Str → Str) (src : FlatMap) : FlatMap → Str × Str → FlatMap :=
  fun a p =>
    match lookupL a p.1 with
    | none => a
    | some _ =>
        match lookupL src p.1 with
        | some (.vStr s) => setKey a p.1 (mkEntry p.2 (md5 s))
        | _ => a

/-- Abbreviation for the reorder fold of run(). -/
def reorderGo (ft : FlatMap) : FlatMap → Str × JVal → FlatMap :=
  fun acc p =>
    match lookupL ft p.1 with
    | some v => acc ++ [(p.1, v)]
    | none => acc

/-- Abbreviation for the base-language fold of run(). -/
def baseGo (md5 : Str → Str) : FlatMap → Str × JVal → FlatMap :=
  fun a p =>
    match p.2 with
    | .vStr s => setKey a p.1 (mkEntry s (md5 s))
    | v => setKey a p.1 v

/-- JS `\w`: ASCII letters, digits and underscore. -/
def isWordChar (c : Char) : Bool :=
  ('a' ≤ c && c ≤ 'z') || ('A' ≤ c && c ≤ 'Z') || ('0' ≤ c && c ≤ '9') || c = '_'

/-- The `\w+\}?\}` tail of the placeholder pattern, applied after the
opening brace(s): a nonempty greedy word run, then with JS backtracking
either two closing braces (greedy optional `}` kept) or a single one
(optional `}` given back).  `opens` is the already-consumed opening. -/
def matchPlaceholderCore (opens rest1 : Str) : Option (Str × Str) :=
  let w := rest1.takeWhile isWordChar
  let afterW := rest1.dropWhile isWordChar
  if w.isEmpty then none
  else
    match afterW with
    | d1 :: d2 :: r2 =>
        if d1 = '}' then
          if d2 = '}' then some (opens ++ w ++ [d1, d2], r2)
          else some (opens ++ w ++ [d1], d2 :: r2)
        else none
    | [d1] => if d1 = '}' then some (opens ++ w ++ [d1], []) else none
    | [] => none

/-- Anchored match of the placeholder pattern `\{\{?\w+\}?\}` at the head
of the text, with JS backtracking semantics.  Returns the matched text and
the remainder. -/
def matchPlaceholder (s : Str) : Option (Str × Str) :=
  match s with
  | [] => none
  | c :: rest =>
      if c = '{' then
        match rest with
        | c2 :: rest2 =>
            if c2 = '{' then matchPlaceholderCore [c, c2] rest2
            else matchPlaceholderCore [c] rest
        | [] => matchPlaceholderCore [c] rest
      else none

/-- Fuelled scanner behind `findPlaceholders` (fuel keeps the recursion
structural so that the kernel can evaluate it; `s.length` fuel always
suffices because every step consumes at least one character). -/
def findPlaceholdersFuel : Nat → Str → List Str
  | _, [] => []
  | 0, _ :: _ => []
  | fuel + 1, c :: rest =>
      match matchPlaceholder (c :: rest) with
      | some (m, r) => m :: findPlaceholdersFuel fuel r
      | none => findPlaceholdersFuel fuel rest

/-- `text.match(/\{\{?\w+\}?\}/g)`: all placeholder matches, scanning left
to right and continuing after each match. -/
def findPlaceholders (s : Str) : List Str := findPlaceholdersFuel s.length s

/-- `text.replace(pat, repl)` with a string pattern: replace the first
occurrence of `pat` (the whole text is returned unchanged when there is
none). -/
def replaceFirstStr : Str → Str → Str → Str
  | [], pat, repl => if pat.isEmpty then repl else []
  | c :: rest, pat, repl =>
      if pat.isPrefixOf (c :: rest) then repl ++ (c :: rest).drop pat.length
      else c :: replaceFirstStr rest pat repl

/-- Fuelled decimal-digit accumulator (`n` itself is always enough fuel). -/
def natDigitsFuel : Nat → Nat → Str → Str
  | _, 0, acc => acc
  | 0, _ + 1, acc => acc
  | fuel + 1, n + 1, acc =>
      natDigitsFuel fuel ((n + 1) / 10) (Char.ofNat (48 + (n + 1) % 10) :: acc)

/-- Decimal representation of a natural number (the `${index}` of the JS
template string building a marker). -/
def natStr (n : Nat) : Str := if n = 0 then ['0'] else natDigitsFuel n n []

/-- The sentinel word used in markers. -/
def sentinel : Str := "XPLACEHOLDERX".toList

/-- The marker for placeholder number `i`: `XPLACEHOLDERX${i}XPLACEHOLDERX`. -/
def markerStr (i : Nat) : Str := sentinel ++ natStr i ++ sentinel

/-- extractPlaceholders from translate.ts: find all placeholders, then
replace the first occurrence of each (in match order) with its
space-padded marker, recording marker → placeholder in insertion order. -/
def extractPlaceholders (text : Str) : Str × List (Str × Str) :=
  let ps := findPlaceholders text
  if ps.isEmpty then (text, [])
  else
    ps.enum.foldl
      (fun st p =>
        let marker := markerStr p.1
        (replaceFirstStr st.1 p.2 (' ' :: (marker ++ [' '])),
         st.2 ++ [(marker, p.2)]))
      (text, [])

/-- Case-insensitive character comparison (the `i` regex flag; ASCII
suffices for every string involved). -/
def ciEqChar (a b : Char) : Bool := a.toLower = b.toLower

/-- Case-insensitive literal-prefix test. -/
def ciIsPrefix : Str → Str → Bool
  | [], _ => true
  | _ :: _, [] => false
  | p :: ps, t :: ts => ciEqChar p t && ciIsPrefix ps ts

/-- Anchored match of `\s*V\s*` (case-insensitive, `V` a literal with no
regex specials after escaping) at the head of the text: greedy leading
whitespace, the literal, greedy trailing whitespace.  Returns the consumed
part and the remainder. -/
def matchWsVarWs (var s : Str) : Option (Str × Str) :=
  let s1 := s.dropWhile isJsSpace
  if ciIsPrefix var s1 then
    let s2 := s1.drop var.length
    some (s.takeWhile isJsSpace ++ s1.take var.length ++ s2.takeWhile isJsSpace,
          s2.dropWhile isJsSpace)
  else none

/-- `new RegExp('\\s*' + escaped + '\\s*', 'gi').test(text)`: does the
pattern match anywhere (at any start position)? -/
def testWsVarWs (var : Str) : Str → Bool
  | [] => (matchWsVarWs var []).isSome
  | c :: rest => (matchWsVarWs var (c :: rest)).isSome || testWsVarWs var rest

/-- Fuelled scanner behind `replaceAllWsVarWs` (`s.length` fuel always
suffices for a nonempty pattern). -/
def replaceAllFuel (var repl : Str) : Nat → Str → Str
  | _, [] => []
  | 0, s => s
  | fuel + 1, c :: rest =>
      match matchWsVarWs var (c :: rest) with
      | some (_, r) => repl ++ replaceAllFuel var repl fuel r
      | none => c :: replaceAllFuel var repl fuel rest

/-- `text.replace(/\s*V\s*/gi, repl)`: scan left to right, replacing every
match and copying unmatched characters.  An empty `V` never occurs (all
variations of a marker are nonempty); that case is returned unchanged. -/
def replaceAllWsVarWs (var repl s : Str) : Str :=
  if var.isEmpty then s else replaceAllFuel var repl s.length s

/-- The six lookup variations restorePlaceholders tries for a marker, in
order.  (The regex-special escaping step is the identity on every one of
these strings, so the literal matcher above is exact.) -/
def markerVariations (marker : Str) : List Str :=
  [marker, lowerStr marker, marker.map Char.toUpper,
   marker.map (fun c => if c = 'X' then 'x' else c),
   marker.dropLast, marker.drop 1]

/-- One iteration of restorePlaceholders' outer loop: try the variations
in order, and on the first whose pattern tests positive, replace all its
occurrences with the space-padded placeholder. -/
def restoreOne (result marker placeholder : Str) : Str :=
  match (markerVariations marker).find? (fun v => testWsVarWs v result) with
  | some v => replaceAllWsVarWs v (' ' :: (placeholder ++ [' '])) result
  | none => result

/-- `text.replace(/\s+/g, ' ')`: collapse every whitespace run to a single
space.  The boolean records whether the previous character was whitespace
(so a run only emits one space, at its first character). -/
def collapseWsAux : Bool → Str → Str
  | _, [] => []
  | inWs, c :: rest =>
      if isJsSpace c then
        if inWs then collapseWsAux true rest else ' ' :: collapseWsAux true rest
      else c :: collapseWsAux false rest

/-- `text.replace(/\s+/g, ' ')`. -/
def collapseWs (s : Str) : Str := collapseWsAux false s

/-- restorePlaceholders from translate.ts. -/
def restorePlaceholders (translatedText : Str) (pmap : List (Str × Str)) : Str :=
  if pmap.isEmpty then translatedText
  else
    trimStr (collapseWs (pmap.foldl (fun res p => restoreOne res p.1 p.2) translatedText))

/-- The spec's `normalize_whitespace`: collapse whitespace runs to one
space and trim the ends. -/
def normalizeWs (s : Str) : Str := trimStr (collapseWs s)

/-- The terminal-leaf class exactly as the claim words it: an array, a
primitive (non-object or null), or an object containing both a
translation and a sourceHash property. -/
def claimTerminalLeaf : JVal → Bool
  | .vArr _ => true
  | .vObj fields =>
      (fields.any (fun p => p.1 = keyTranslation)) &&
      (fields.any (fun p => p.1 = keySourceHash))
  | _ => true

/-- The strip the claim describes: remove a trailing ellipsis (the
three-dot form first, then the single-character form), then one trailing
`.`, `!` or `?`; each removal also eats whitespace standing between the
removed token and the end of the text. -/
def dropSuffixWs (pat : Str) (t : Str) : Str :=
  let r := t.reverse.dropWhile isJsSpace
  if pat.reverse.isPrefixOf r then (r.drop pat.length).reverse else t

/-- The final single-punctuation-mark removal of the claim. -/
def dropPunctWs (t : Str) : Str :=
  match t.reverse.dropWhile isJsSpace with
  | c :: rest => if c = '.' || c = '!' || c = '?' then rest.reverse else t
  | [] => t

/-- The complete strip the claim describes, applied to the trimmed
translated text. -/
def claimStripPunct (t : Str) : Str :=
  dropPunctWs (dropSuffixWs [ellipsisChar] (dropSuffixWs "...".toList t))

/-- A key with no dot, so that `split('.')` leaves it whole. -/
def dotFree (k : Str) : Bool := k.all (fun c => c ≠ '.')

/-- Boolean key-uniqueness of an association list. -/
def nodupKeys {α : Type} : List (Str × α) → Bool
  | [] => true
  | (k, _) :: rest => !(rest.any (fun p => p.1 = k)) && nodupKeys rest

mutual

/-- The trees for which the flatten/unflatten round trip is claimed:
every recursed object is nonempty with unique, nonempty, dot-free keys
(TranslationEntry-shaped objects are opaque leaves and need nothing). -/
def goodVal : JVal → Bool
  | .vObj fields =>
      isTranslationEntry (.vObj fields) ||
        (!fields.isEmpty && nodupKeys fields && goodFields fields)
  | _ => true

/-- Per-field goodness: nonempty dot-free key and a good value. -/
def goodFields : List (Str × JVal) → Bool
  | [] => true
  | (k, v) :: rest => !k.isEmpty && dotFree k && goodVal v && goodFields rest

end

/-- The fields of an object value (empty for anything else). -/
def fieldsOf : JVal → List (Str × JVal)
  | .vObj fields => fields
  | _ => []

mutual

/-- The specification-level flatten: a flat list of dot-joined paths in
field order, with no accumulator and no key collisions. -/
def flattenSimpleV : JVal → FlatMap
  | .vObj fields => flattenSimpleF fields
  | _ => []

/-- Specification-level flatten of a field list. -/
def flattenSimpleF : List (Str × JVal) → FlatMap
  | [] => []
  | (k, v) :: rest =>
      (if isFlattenLeaf v then [(k, v)]
       else (flattenSimpleV v).map (fun q => (k ++ '.' :: q.1, q.2))) ++
      flattenSimpleF rest

end

/-- The fold of unflattenObject over a flat map, from an arbitrary
starting object. -/
def foldInsert (m : FlatMap) (E : FlatMap) : FlatMap :=
  E.foldl (fun acc q => insertPath acc (splitDots q.1) q.2) m

/-- The first dot-separated segment of a flat key. -/
def firstSeg (k : Str) : Str := k.takeWhile (fun c => c ≠ '.')

/-- Strip the trailing whitespace run of a string (structurally). -/
def wsStripEnd : Str → Str
  | [] => []
  | c :: rest =>
      if isJsSpace c then
        match wsStripEnd rest with
        | [] => []
        | d :: r => c :: d :: r
      else c :: wsStripEnd rest

/-- The in-whitespace flag of collapseWsAux after scanning a string. -/
def stateAfter (b : Bool) (xs : Str) : Bool :=
  xs.foldl (fun _ c => isJsSpace c) b

/-! ## Part 2: the verification (theorems) -/

theorem lookupL_cons {α : Type} (a : Str) (b : α) (rest : List (Str × α)) (k : Str) :
    lookupL ((a, b) :: rest) k = if a = k then some b else lookupL rest k := rfl

theorem lookupL_eq_none_of_notMem {α : Type} (m : List (Str × α)) (k : Str)
    (h : k ∉ m.map Prod.fst) : lookupL m k = none := by
  induction m with
  | nil => rfl
  | cons p rest ih =>
      obtain ⟨p1, p2⟩ := p
      simp only [List.map_cons, List.mem_cons] at h
      push_neg at h
      rw [lookupL_cons, if_neg (fun e => h.1 e.symm)]
      exact ih h.2

theorem mem_of_lookupL_eq_some {α : Type} (m : List (Str × α)) (k : Str) (v : α)
    (h : lookupL m k = some v) : k ∈ m.map Prod.fst := by
  by_contra hmem
  rw [lookupL_eq_none_of_notMem m k hmem] at h
  exact Option.noConfusion h

theorem lookupL_append_left {α : Type} (m1 m2 : List (Str × α)) (k : Str) (v : α)
    (h : lookupL m1 k = some v) : lookupL (m1 ++ m2) k = some v := by
  induction m1 with
  | nil => exact Option.noConfusion h
  | cons p rest ih =>
      obtain ⟨p1, p2⟩ := p
      rw [lookupL_cons] at h
      rw [List.cons_append, lookupL_cons]
      by_cases he : p1 = k
      · rwa [if_pos he] at h ⊢
      · rw [if_neg he] at h ⊢
        exact ih h

theorem lookupL_append_right {α : Type} (m1 m2 : List (Str × α)) (k : Str)
    (h : lookupL m1 k = none) : lookupL (m1 ++ m2) k = lookupL m2 k := by
  induction m1 with
  | nil => rfl
  | cons p rest ih =>
      obtain ⟨p1, p2⟩ := p
      rw [lookupL_cons] at h
      rw [List.cons_append, lookupL_cons]
      by_cases he : p1 = k
      · rw [if_pos he] at h; exact Option.noConfusion h
      · rw [if_neg he] at h ⊢
        exact ih h

theorem lookupL_map_replace {α : Type} (m : List (Str × α)) (k : Str) (v : α) (k2 : Str) :
    lookupL (m.map (fun p => if p.1 = k then (k, v) else p)) k2 =
      if k2 = k then (if m.any (fun p => p.1 = k) then some v else none)
      else lookupL m k2 := by
  induction m with
  | nil => by_cases h2 : k2 = k <;> simp [h2, lookupL]
  | cons p rest ih =>
      obtain ⟨p1, p2⟩ := p
      simp only [List.map_cons, List.any_cons]
      by_cases he : p1 = k
      · subst he
        rw [if_pos (show (p1, p2).1 = p1 from rfl)]
        rw [lookupL_cons]
        by_cases h2 : k2 = p1
        · subst h2
          rw [if_pos rfl, if_pos rfl]
          simp
        · rw [if_neg (fun e => h2 e.symm), ih, if_neg h2, if_neg h2, lookupL_cons,
            if_neg (fun e => h2 e.symm)]
      · rw [if_neg (show ¬(p1, p2).1 = k from he)]
        rw [lookupL_cons]
        by_cases h2 : k2 = k
        · subst h2
          by_cases hr : (rest.any fun p => decide (p.1 = k2)) = true <;>
            simp [he, hr, ih, lookupL_cons]
        · rw [ih, if_neg h2, if_neg h2, lookupL_cons]

theorem lookupL_setKey (m : FlatMap) (k : Str) (v : JVal) (k2 : Str) :
    lookupL (setKey m k v) k2 = if k2 = k then some v else lookupL m k2 := by
  unfold setKey
  by_cases hm : m.any (fun p => p.1 = k)
  · rw [if_pos hm, lookupL_map_replace]
    by_cases h2 : k2 = k
    · simp [h2, hm]
    · simp [h2]
  · rw [if_neg hm]
    have hnone : lookupL m k = none := by
      apply lookupL_eq_none_of_notMem
      intro hmem
      obtain ⟨q, hq, he⟩ := List.mem_map.mp hmem
      exact hm (List.any_eq_true.mpr ⟨q, hq, by simp [he]⟩)
    by_cases h2 : k2 = k
    · subst h2
      rw [if_pos rfl, lookupL_append_right _ _ _ hnone, lookupL_cons, if_pos rfl]
    · rw [if_neg h2]
      cases hl : lookupL m k2 with
      | some v2 => exact lookupL_append_left _ _ _ _ hl
      | none =>
          rw [lookupL_append_right _ _ _ hl, lookupL_cons,
            if_neg (fun e => h2 e.symm)]
          rfl

theorem lookupL_setKey_self (m : FlatMap) (k : Str) (v : JVal) :
    lookupL (setKey m k v) k = some v := by
  rw [lookupL_setKey, if_pos rfl]

theorem lookupL_setKey_ne (m : FlatMap) (k : Str) (v : JVal) (k2 : Str) (h : k2 ≠ k) :
    lookupL (setKey m k v) k2 = lookupL m k2 := by
  rw [lookupL_setKey, if_neg h]

theorem scanKeys_go_snd (md5 : Str → Str) (cache : FlatMap) (src : List (Str × JVal))
    (st : FlatMap × List (Str × Str)) :
    (src.foldl
      (fun st p =>
        match p.2 with
        | .vStr s =>
            if entryUpToDate md5 (lookupL cache p.1) s then st
            else (st.1, st.2 ++ [(p.1, s)])
        | v => (setKey st.1 p.1 v, st.2)) st).2 =
    st.2 ++ src.filterMap
      (fun p =>
        match p.2 with
        | .vStr s =>
            if entryUpToDate md5 (lookupL cache p.1) s then none else some (p.1, s)
        | _ => none) := by
  induction src generalizing st with
  | nil => simp
  | cons p rest ih =>
      obtain ⟨k0, v0⟩ := p
      cases v0 with
      | vStr s =>
          simp only [List.foldl_cons, List.filterMap_cons]
          by_cases hu : entryUpToDate md5 (lookupL cache k0) s
          · rw [if_pos hu, if_pos hu, ih st]
          · rw [if_neg hu, if_neg hu, ih (st.1, st.2 ++ [(k0, s)])]
            simp
      | vNum n => rw [List.foldl_cons, List.filterMap_cons]; rw [ih]
      | vBool b => rw [List.foldl_cons, List.filterMap_cons]; rw [ih]
      | vNull => rw [List.foldl_cons, List.filterMap_cons]; rw [ih]
      | vArr a => rw [List.foldl_cons, List.filterMap_cons]; rw [ih]
      | vObj o => rw [List.foldl_cons, List.filterMap_cons]; rw [ih]

theorem scanKeys_snd (md5 : Str → Str) (src cache : FlatMap) :
    (scanKeys md5 src cache).2 =
      src.filterMap
        (fun p =>
          match p.2 with
          | .vStr s =>
              if entryUpToDate md5 (lookupL cache p.1) s then none else some (p.1, s)
          | _ => none) := by
  unfold scanKeys
  rw [scanKeys_go_snd]
  simp

theorem lookupL_isSome_of_mem {α : Type} (m : List (Str × α)) (k : Str)
    (h : k ∈ m.map Prod.fst) : (lookupL m k).isSome := by
  induction m with
  | nil => simp at h
  | cons p rest ih =>
      obtain ⟨p1, p2⟩ := p
      rw [lookupL_cons]
      by_cases he : p1 = k
      · rw [if_pos he]; rfl
      · rw [if_neg he]
        simp only [List.map_cons, List.mem_cons] at h
        exact ih (h.resolve_left (fun e => he e.symm))

theorem notMem_of_lookupL_eq_none {α : Type} (m : List (Str × α)) (k : Str)
    (h : lookupL m k = none) : k ∉ m.map Prod.fst := by
  intro hmem
  have := lookupL_isSome_of_mem m k hmem
  rw [h] at this
  exact Bool.noConfusion this

theorem scanKeys_eq_go (md5 : Str → Str) (src cache : FlatMap) :
    scanKeys md5 src cache = src.foldl (scanGo md5 cache) (cache, []) := rfl

theorem scanGo_fst_lookup_none (md5 : Str → Str) (cache : FlatMap)
    (src : List (Str × JVal)) (st : FlatMap × List (Str × Str)) (k : Str)
    (h : lookupL src k = none) :
    lookupL (src.foldl (scanGo md5 cache) st).1 k = lookupL st.1 k := by
  induction src generalizing st with
  | nil => rfl
  | cons p rest ih =>
      obtain ⟨k0, v0⟩ := p
      rw [lookupL_cons] at h
      by_cases he : k0 = k
      · rw [if_pos he] at h; exact Option.noConfusion h
      · rw [if_neg he] at h
        rw [List.foldl_cons, ih _ h]
        cases v0 with
        | vStr s =>
            show lookupL (if entryUpToDate md5 (lookupL cache k0) s then st
              else (st.1, st.2 ++ [(k0, s)])).1 k = lookupL st.1 k
            split <;> rfl
        | vNum n => exact lookupL_setKey_ne _ _ _ _ (fun e => he e.symm)
        | vBool b => exact lookupL_setKey_ne _ _ _ _ (fun e => he e.symm)
        | vNull => exact lookupL_setKey_ne _ _ _ _ (fun e => he e.symm)
        | vArr a => exact lookupL_setKey_ne _ _ _ _ (fun e => he e.symm)
        | vObj o => exact lookupL_setKey_ne _ _ _ _ (fun e => he e.symm)

theorem scanGo_fst_lookup_str (md5 : Str → Str) (cache : FlatMap)
    (src : List (Str × JVal)) (st : FlatMap × List (Str × Str)) (k s : Str)
    (hnd : (src.map Prod.fst).Nodup) (h : lookupL src k = some (.vStr s)) :
    lookupL (src.foldl (scanGo md5 cache) st).1 k = lookupL st.1 k := by
  induction src generalizing st with
  | nil => exact Option.noConfusion h
  | cons p rest ih =>
      obtain ⟨k0, v0⟩ := p
      simp only [List.map_cons, List.nodup_cons] at hnd
      rw [lookupL_cons] at h
      by_cases he : k0 = k
      · rw [if_pos he] at h
        injection h with h
        subst h
        have hrest : lookupL rest k = none :=
          lookupL_eq_none_of_notMem _ _ (he ▸ hnd.1)
        rw [List.foldl_cons, scanGo_fst_lookup_none md5 cache rest _ k hrest]
        show lookupL (if entryUpToDate md5 (lookupL cache k0) s then st
          else (st.1, st.2 ++ [(k0, s)])).1 k = lookupL st.1 k
        split <;> rfl
      · rw [if_neg he] at h
        rw [List.foldl_cons, ih _ hnd.2 h]
        cases v0 with
        | vStr s2 =>
            show lookupL (if entryUpToDate md5 (lookupL cache k0) s2 then st
              else (st.1, st.2 ++ [(k0, s2)])).1 k = lookupL st.1 k
            split <;> rfl
        | vNum n => exact lookupL_setKey_ne _ _ _ _ (fun e => he e.symm)
        | vBool b => exact lookupL_setKey_ne _ _ _ _ (fun e => he e.symm)
        | vNull => exact lookupL_setKey_ne _ _ _ _ (fun e => he e.symm)
        | vArr a => exact lookupL_setKey_ne _ _ _ _ (fun e => he e.symm)
        | vObj o => exact lookupL_setKey_ne _ _ _ _ (fun e => he e.symm)

theorem scanGo_fst_lookup_nonstr (md5 : Str → Str) (cache : FlatMap)
    (src : List (Str × JVal)) (st : FlatMap × List (Str × Str)) (k : Str) (v : JVal)
    (hnd : (src.map Prod.fst).Nodup) (h : lookupL src k = some v)
    (hv : ∀ s, v ≠ .vStr s) :
    lookupL (src.foldl (scanGo md5 cache) st).1 k = some v := by
  induction src generalizing st with
  | nil => exact Option.noConfusion h
  | cons p rest ih =>
      obtain ⟨k0, v0⟩ := p
      simp only [List.map_cons, List.nodup_cons] at hnd
      rw [lookupL_cons] at h
      by_cases he : k0 = k
      · rw [if_pos he] at h
        injection h with h
        subst h
        have hrest : lookupL rest k = none :=
          lookupL_eq_none_of_notMem _ _ (he ▸ hnd.1)
        rw [List.foldl_cons, scanGo_fst_lookup_none md5 cache rest _ k hrest]
        cases v0 with
        | vStr s => exact absurd rfl (hv s)
        | vNum n => exact he ▸ lookupL_setKey_self st.1 k0 _
        | vBool b => exact he ▸ lookupL_setKey_self st.1 k0 _
        | vNull => exact he ▸ lookupL_setKey_self st.1 k0 _
        | vArr a => exact he ▸ lookupL_setKey_self st.1 k0 _
        | vObj o => exact he ▸ lookupL_setKey_self st.1 k0 _
      · rw [if_neg he] at h
        rw [List.foldl_cons, ih _ hnd.2 h]

theorem mergeResults_eq_go (md5 : Str → Str) (ft : FlatMap) (batch : List (Str × Str))
    (trs : List Str) :
    mergeResults md5 ft batch trs = batch.enum.foldl (mergeGo md5 trs) ft := rfl

theorem mergeGo_lookup_notin (md5 : Str → Str) (trs : List Str)
    (L : List (Nat × (Str × Str))) (a : FlatMap) (k : Str)
    (h : ∀ q ∈ L, q.2.1 ≠ k) :
    lookupL (L.foldl (mergeGo md5 trs) a) k = lookupL a k := by
  induction L generalizing a with
  | nil => rfl
  | cons q L ih =>
      rw [List.foldl_cons, ih _ (fun q2 hq => h q2 (List.mem_cons_of_mem _ hq))]
      exact lookupL_setKey_ne _ _ _ _
        (fun e => h q (List.mem_cons_self _ _) e.symm)

theorem mergeResults_lookup_notin (md5 : Str → Str) (ft : FlatMap)
    (batch : List (Str × Str)) (trs : List Str) (k : Str)
    (h : ∀ q ∈ batch, q.1 ≠ k) :
    lookupL (mergeResults md5 ft batch trs) k = lookupL ft k := by
  rw [mergeResults_eq_go]
  apply mergeGo_lookup_notin
  intro q hq
  apply h
  rw [← List.enum_map_snd batch]
  exact List.mem_map_of_mem Prod.snd hq

theorem mergeGo_lookup_isSome (md5 : Str → Str) (trs : List Str)
    (L : List (Nat × (Str × Str))) (a : FlatMap) (k : Str)
    (h : (∃ q ∈ L, q.2.1 = k) ∨ (lookupL a k).isSome) :
    (lookupL (L.foldl (mergeGo md5 trs) a) k).isSome := by
  induction L generalizing a with
  | nil =>
      rcases h with ⟨q, hq, _⟩ | h
      · simp at hq
      · exact h
  | cons q L ih =>
      rw [List.foldl_cons]
      apply ih
      by_cases he : q.2.1 = k
      · right
        rw [show mergeGo md5 trs a q =
          setKey a q.2.1 (mkEntry (trs.getD q.1 []) (md5 q.2.2)) from rfl]
        rw [he, lookupL_setKey_self]
        rfl
      · rcases h with ⟨q2, hq2, he2⟩ | h
        · rcases List.mem_cons.mp hq2 with rfl | hq2
          · exact absurd he2 he
          · exact Or.inl ⟨q2, hq2, he2⟩
        · right
          rw [show mergeGo md5 trs a q =
            setKey a q.2.1 (mkEntry (trs.getD q.1 []) (md5 q.2.2)) from rfl]
          rw [lookupL_setKey]
          by_cases h2 : k = q.2.1
          · rw [if_pos h2]; rfl
          · rwa [if_neg h2]

theorem mergeResults_lookup_isSome (md5 : Str → Str) (ft : FlatMap)
    (batch : List (Str × Str)) (trs : List Str) (k : Str)
    (h : (∃ q ∈ batch, q.1 = k) ∨ (lookupL ft k).isSome) :
    (lookupL (mergeResults md5 ft batch trs) k).isSome := by
  rw [mergeResults_eq_go]
  apply mergeGo_lookup_isSome
  rcases h with ⟨q, hq, he⟩ | h
  · left
    obtain ⟨i, hi⟩ := List.get_of_mem hq
    refine ⟨(i.1, q), ?_, he⟩
    rw [List.mem_iff_get?]
    refine ⟨i.1, ?_⟩
    rw [List.enum_get?]
    rw [← hi, List.get?_eq_get i.2]
    rfl
  · exact Or.inr h

theorem applyOverrides_ns_none (md5 : Str → Str) (ft : FlatMap) (ov : OvTable)
    (ns lang : Str) (src : FlatMap) (h : lookupL ov ns = none) :
    applyOverrides md5 ft ov ns lang src = ft := by
  unfold applyOverrides
  rw [h]

theorem applyOverrides_lang_none (md5 : Str → Str) (ft : FlatMap) (ov : OvTable)
    (ns lang : Str) (src : FlatMap) (nsOv : List (Str × List (Str × Str)))
    (hns : lookupL ov ns = some nsOv) (hlang : lookupL nsOv lang = none) :
    applyOverrides md5 ft ov ns lang src = ft := by
  unfold applyOverrides
  rw [hns]
  show (match lookupL nsOv lang with
    | none => ft
    | some langOv => langOv.foldl (ovGo md5 src) ft) = ft
  rw [hlang]

theorem applyOverrides_some (md5 : Str → Str) (ft : FlatMap) (ov : OvTable)
    (ns lang : Str) (src : FlatMap) (nsOv : List (Str × List (Str × Str)))
    (langOv : List (Str × Str))
    (hns : lookupL ov ns = some nsOv) (hlang : lookupL nsOv lang = some langOv) :
    applyOverrides md5 ft ov ns lang src = langOv.foldl (ovGo md5 src) ft := by
  unfold applyOverrides
  rw [hns]
  show (match lookupL nsOv lang with
    | none => ft
    | some langOv => langOv.foldl (ovGo md5 src) ft) =
    langOv.foldl (ovGo md5 src) ft
  rw [hlang]

theorem ovGo_lookup_notin (md5 : Str → Str) (src : FlatMap)
    (L : List (Str × Str)) (a : FlatMap) (k : Str) (h : ∀ q ∈ L, q.1 ≠ k) :
    lookupL (L.foldl (ovGo md5 src) a) k = lookupL a k := by
  induction L generalizing a with
  | nil => rfl
  | cons q L ih =>
      rw [List.foldl_cons, ih _ (fun q2 hq => h q2 (List.mem_cons_of_mem _ hq))]
      show lookupL (ovGo md5 src a q) k = lookupL a k
      unfold ovGo
      cases lookupL a q.1 with
      | none => rfl
      | some w =>
          cases hs : lookupL src q.1 with
          | none => rfl
          | some sv =>
              cases sv with
              | vStr s =>
                  exact lookupL_setKey_ne _ _ _ _
                    (fun e => h q (List.mem_cons_self _ _) e.symm)
              | vNum n => rfl
              | vBool b => rfl
              | vNull => rfl
              | vArr el => rfl
              | vObj o => rfl

theorem applyOverrides_lookup_none (md5 : Str → Str) (ft : FlatMap) (ov : OvTable)
    (ns lang : Str) (src : FlatMap) (k : Str) (h : ovLookup ov ns lang k = none) :
    lookupL (applyOverrides md5 ft ov ns lang src) k = lookupL ft k := by
  cases hns : lookupL ov ns with
  | none => rw [applyOverrides_ns_none md5 ft ov ns lang src hns]
  | some nsOv =>
      cases hlang : lookupL nsOv lang with
      | none => rw [applyOverrides_lang_none md5 ft ov ns lang src nsOv hns hlang]
      | some langOv =>
          rw [applyOverrides_some md5 ft ov ns lang src nsOv langOv hns hlang]
          have hkey : lookupL langOv k = none := by
            simpa [ovLookup, hns, hlang] using h
          apply ovGo_lookup_notin
          intro q hq he
          have hm := lookupL_isSome_of_mem langOv k
            (he ▸ List.mem_map_of_mem Prod.fst hq)
          rw [hkey] at hm
          exact Bool.noConfusion hm

theorem ovGo_lookup_applied (md5 : Str → Str) (src : FlatMap)
    (L : List (Str × Str)) (a : FlatMap) (k s f : Str)
    (hnd : (L.map Prod.fst).Nodup) (hL : lookupL L k = some f)
    (ha : (lookupL a k).isSome) (hsrc : lookupL src k = some (.vStr s)) :
    lookupL (L.foldl (ovGo md5 src) a) k = some (mkEntry f (md5 s)) := by
  induction L generalizing a with
  | nil => exact Option.noConfusion hL
  | cons q L ih =>
      obtain ⟨q1, q2⟩ := q
      simp only [List.map_cons, List.nodup_cons] at hnd
      rw [lookupL_cons] at hL
      by_cases he : q1 = k
      · rw [if_pos he] at hL
        injection hL with hL
        subst hL
        subst he
        rw [List.foldl_cons]
        have hstep : ovGo md5 src a (q1, q2) = setKey a q1 (mkEntry q2 (md5 s)) := by
          unfold ovGo
          obtain ⟨w, hw⟩ := Option.isSome_iff_exists.mp ha
          rw [hw]
          simp only
          rw [hsrc]
        rw [hstep]
        rw [ovGo_lookup_notin md5 src L _ q1
          (fun q hq he2 => hnd.1 (he2 ▸ List.mem_map_of_mem Prod.fst hq))]
        exact lookupL_setKey_self _ _ _
      · rw [if_neg he] at hL
        rw [List.foldl_cons]
        refine ih _ hnd.2 hL ?_
        show (lookupL (ovGo md5 src a (q1, q2)) k).isSome
        unfold ovGo
        cases lookupL a q1 with
        | none => exact ha
        | some w =>
            cases lookupL src q1 with
            | none => exact ha
            | some sv =>
                cases sv with
                | vStr s2 =>
                    rw [lookupL_setKey_ne _ _ _ _ (fun e => he e.symm)]
                    exact ha
                | vNum n => exact ha
                | vBool b => exact ha
                | vNull => exact ha
                | vArr el => exact ha
                | vObj o => exact ha

theorem applyOverrides_lookup_applied (md5 : Str → Str) (ft : FlatMap) (ov : OvTable)
    (ns lang : Str) (src : FlatMap) (k s f : Str)
    (nsOv : List (Str × List (Str × Str))) (langOv : List (Str × Str))
    (hns : lookupL ov ns = some nsOv) (hlang : lookupL nsOv lang = some langOv)
    (hnd : (langOv.map Prod.fst).Nodup) (hL : lookupL langOv k = some f)
    (ha : (lookupL ft k).isSome) (hsrc : lookupL src k = some (.vStr s)) :
    lookupL (applyOverrides md5 ft ov ns lang src) k = some (mkEntry f (md5 s)) := by
  rw [applyOverrides_some md5 ft ov ns lang src nsOv langOv hns hlang]
  exact ovGo_lookup_applied md5 src langOv ft k s f hnd hL ha hsrc

theorem reorderBySource_eq_go (src ft : FlatMap) :
    reorderBySource src ft = src.foldl (reorderGo ft) [] := rfl

theorem reorderGo_acc (src ft : FlatMap) (acc : FlatMap) :
    src.foldl (reorderGo ft) acc =
      acc ++ src.filterMap (fun p => (lookupL ft p.1).map (fun v => (p.1, v))) := by
  induction src generalizing acc with
  | nil => simp
  | cons p rest ih =>
      obtain ⟨k0, v0⟩ := p
      rw [List.foldl_cons, List.filterMap_cons]
      cases hl : lookupL ft k0 with
      | some v =>
          rw [show reorderGo ft acc (k0, v0) = acc ++ [(k0, v)] from by
            unfold reorderGo; rw [hl]]
          rw [ih]
          simp
      | none =>
          rw [show reorderGo ft acc (k0, v0) = acc from by
            unfold reorderGo; rw [hl]]
          rw [ih]
          simp

theorem reorderBySource_eq_filterMap (src ft : FlatMap) :
    reorderBySource src ft =
      src.filterMap (fun p => (lookupL ft p.1).map (fun v => (p.1, v))) := by
  rw [reorderBySource_eq_go, reorderGo_acc]
  simp

theorem reorderBySource_lookup (src ft : FlatMap) (k : Str) (v : JVal)
    (hk : k ∈ src.map Prod.fst) (hv : lookupL ft k = some v) :
    lookupL (reorderBySource src ft) k = some v := by
  rw [reorderBySource_eq_filterMap]
  induction src with
  | nil => simp at hk
  | cons p rest ih =>
      obtain ⟨k0, v0⟩ := p
      simp only [List.map_cons, List.mem_cons] at hk
      simp only [List.filterMap_cons]
      by_cases he : k0 = k
      · subst he
        rw [hv]
        show lookupL ((k0, v) ::
          rest.filterMap (fun p => (lookupL ft p.1).map (fun v => (p.1, v)))) k0 = some v
        rw [lookupL_cons, if_pos rfl]
      · cases hl : lookupL ft k0 with
        | some w =>
            show lookupL ((k0, w) ::
              rest.filterMap (fun p => (lookupL ft p.1).map (fun v => (p.1, v)))) k = some v
            rw [lookupL_cons, if_neg he]
            exact ih (hk.resolve_left (fun e => he e.symm))
        | none =>
            show lookupL
              (rest.filterMap (fun p => (lookupL ft p.1).map (fun v => (p.1, v)))) k = some v
            exact ih (hk.resolve_left (fun e => he e.symm))

theorem reorderBySource_keys (src ft : FlatMap) :
    (reorderBySource src ft).map Prod.fst =
      (src.filter (fun p => (lookupL ft p.1).isSome)).map Prod.fst := by
  rw [reorderBySource_eq_filterMap]
  induction src with
  | nil => rfl
  | cons p rest ih =>
      obtain ⟨k0, v0⟩ := p
      simp only [List.filterMap_cons, List.filter_cons]
      cases hl : lookupL ft k0 with
      | some w =>
          rw [if_pos (show ((some w).isSome = true) from rfl)]
          show ((k0, w) ::
            rest.filterMap (fun p => (lookupL ft p.1).map (fun v => (p.1, v)))).map Prod.fst =
            ((k0, v0) :: rest.filter (fun p => (lookupL ft p.1).isSome)).map Prod.fst
          rw [List.map_cons, List.map_cons, ih]
      | none =>
          rw [if_neg (show ¬((none : Option JVal).isSome = true) from by simp)]
          exact ih

theorem mem_of_lookupL (m : FlatMap) (k : Str) (v : JVal)
    (h : lookupL m k = some v) : (k, v) ∈ m := by
  induction m with
  | nil => exact Option.noConfusion h
  | cons p rest ih =>
      obtain ⟨p1, p2⟩ := p
      rw [lookupL_cons] at h
      by_cases he : p1 = k
      · rw [if_pos he] at h
        injection h with h
        subst h
        subst he
        exact List.mem_cons_self _ _
      · rw [if_neg he] at h
        exact List.mem_cons_of_mem _ (ih h)

theorem lookupL_of_mem_nodup (m : FlatMap) (k : Str) (v : JVal)
    (hnd : (m.map Prod.fst).Nodup) (h : (k, v) ∈ m) : lookupL m k = some v := by
  induction m with
  | nil => simp at h
  | cons p rest ih =>
      obtain ⟨p1, p2⟩ := p
      simp only [List.map_cons, List.nodup_cons] at hnd
      rcases List.mem_cons.mp h with he | hm
      · injection he with h1 h2
        subst h1; subst h2
        rw [lookupL_cons, if_pos rfl]
      · rw [lookupL_cons]
        by_cases he : p1 = k
        · subst he
          exact absurd (List.mem_map_of_mem Prod.fst hm) hnd.1
        · rw [if_neg he]
          exact ih hnd.2 hm

theorem anyKey_eq_false_of_lookup_none (m : FlatMap) (k : Str)
    (h : lookupL m k = none) : m.any (fun p => p.1 = k) = false := by
  rw [Bool.eq_false_iff]
  intro ha
  obtain ⟨q, hq, he⟩ := List.any_eq_true.mp ha
  have := lookupL_isSome_of_mem m k
    ((by simpa using he : q.1 = k) ▸ List.mem_map_of_mem Prod.fst hq)
  rw [h] at this
  exact Bool.noConfusion this

theorem setKey_of_lookup_none (m : FlatMap) (k : Str) (v : JVal)
    (h : lookupL m k = none) : setKey m k v = m ++ [(k, v)] := by
  unfold setKey
  rw [anyKey_eq_false_of_lookup_none m k h]
  simp

theorem setKey_keys (m : FlatMap) (k : Str) (v : JVal) :
    (setKey m k v).map Prod.fst =
      if (lookupL m k).isSome then m.map Prod.fst else m.map Prod.fst ++ [k] := by
  by_cases h : (lookupL m k).isSome
  · rw [if_pos h]
    unfold setKey
    rw [if_pos]
    · rw [List.map_map]
      apply List.map_congr_left
      intro q hq
      by_cases he : q.1 = k
      · simp [he]
      · simp [he]
    · obtain ⟨w, hw⟩ := Option.isSome_iff_exists.mp h
      exact List.any_eq_true.mpr ⟨(k, w), mem_of_lookupL m k w hw, by simp⟩
  · rw [if_neg h]
    rw [setKey_of_lookup_none m k v (Option.not_isSome_iff_eq_none.mp h)]
    simp

theorem setKey_keys_nodup (m : FlatMap) (k : Str) (v : JVal)
    (h : (m.map Prod.fst).Nodup) : ((setKey m k v).map Prod.fst).Nodup := by
  rw [setKey_keys]
  by_cases hs : (lookupL m k).isSome
  · rwa [if_pos hs]
  · rw [if_neg hs]
    have hk : k ∉ m.map Prod.fst := by
      intro hm
      exact hs (lookupL_isSome_of_mem m k hm)
    simp [List.nodup_append, h, hk]

theorem objAssign_keys_nodup (dst src : FlatMap)
    (h : (dst.map Prod.fst).Nodup) : ((objAssign dst src).map Prod.fst).Nodup := by
  unfold objAssign
  induction src generalizing dst with
  | nil => exact h
  | cons q rest ih => exact ih _ (setKey_keys_nodup _ _ _ h)

theorem objAssign_of_disjoint (dst src : FlatMap)
    (h : ∀ q ∈ src, lookupL dst q.1 = none) (hnd : (src.map Prod.fst).Nodup) :
    objAssign dst src = dst ++ src := by
  unfold objAssign
  induction src generalizing dst with
  | nil => simp
  | cons q rest ih =>
      obtain ⟨q1, q2⟩ := q
      simp only [List.map_cons, List.nodup_cons] at hnd
      rw [List.foldl_cons]
      rw [show setKey dst (q1, q2).1 (q1, q2).2 = dst ++ [(q1, q2)] from
        setKey_of_lookup_none dst q1 q2 (h (q1, q2) (List.mem_cons_self _ _))]
      rw [ih (dst ++ [(q1, q2)]) ?_ hnd.2]
      · simp
      · intro q hq
        have hq1 : lookupL dst q.1 = none := h q (List.mem_cons_of_mem _ hq)
        rw [lookupL_append_right _ _ _ hq1, lookupL_cons]
        rw [if_neg]
        · rfl
        · intro he
          exact hnd.1 (he ▸ List.mem_map_of_mem Prod.fst hq)

mutual

theorem flattenVal_keys_nodup : ∀ (v : JVal) (pre : Str),
    ((flattenVal v pre).map Prod.fst).Nodup
  | .vStr _, _ => by simp [flattenVal]
  | .vNum _, _ => by simp [flattenVal]
  | .vBool _, _ => by simp [flattenVal]
  | .vNull, _ => by simp [flattenVal]
  | .vArr _, _ => by simp [flattenVal]
  | .vObj fields, pre => by
      show ((flattenFields fields pre []).map Prod.fst).Nodup
      exact flattenFields_keys_nodup fields pre [] (by simp)

theorem flattenFields_keys_nodup : ∀ (fields : List (Str × JVal)) (pre : Str)
    (acc : FlatMap), ((acc.map Prod.fst).Nodup) →
    ((flattenFields fields pre acc).map Prod.fst).Nodup
  | [], _, acc => fun h => h
  | (k, v) :: rest, pre, acc => fun h => by
      show ((if isFlattenLeaf v then
          flattenFields rest pre (setKey acc (joinKey pre k) v)
        else
          flattenFields rest pre
            (objAssign acc (flattenVal v (joinKey pre k)))).map Prod.fst).Nodup
      by_cases hl : isFlattenLeaf v
      · rw [if_pos hl]
        exact flattenFields_keys_nodup rest pre _ (setKey_keys_nodup _ _ _ h)
      · rw [if_neg hl]
        exact flattenFields_keys_nodup rest pre _ (objAssign_keys_nodup _ _ h)

end

theorem objAssign_nil (src : FlatMap) (hnd : (src.map Prod.fst).Nodup) :
    objAssign [] src = src := by
  rw [objAssign_of_disjoint [] src (fun q hq => rfl) hnd]
  rfl

theorem processLanguage_empty (md5 : Str → Str) (src cache : FlatMap) (ov : OvTable)
    (ns lang : Str) (provider : Option (List Str))
    (h : (scanKeys md5 src cache).2 = []) :
    processLanguage md5 src cache ov ns lang provider =
      reorderBySource src (scanKeys md5 src cache).1 := by
  unfold processLanguage
  rw [if_pos (by rw [h]; rfl)]

theorem processLanguage_fail (md5 : Str → Str) (src cache : FlatMap) (ov : OvTable)
    (ns lang : Str) (h : (scanKeys md5 src cache).2 ≠ []) :
    processLanguage md5 src cache ov ns lang none =
      reorderBySource src
        (applyOverrides md5 (scanKeys md5 src cache).1 ov ns lang src) := by
  unfold processLanguage
  rw [if_neg (by simpa [List.isEmpty_iff] using h)]

theorem processLanguage_succeed (md5 : Str → Str) (src cache : FlatMap) (ov : OvTable)
    (ns lang : Str) (trs : List Str) (h : (scanKeys md5 src cache).2 ≠ []) :
    processLanguage md5 src cache ov ns lang (some trs) =
      reorderBySource src
        (applyOverrides md5
          (mergeResults md5 (scanKeys md5 src cache).1 (scanKeys md5 src cache).2 trs)
          ov ns lang src) := by
  unfold processLanguage
  rw [if_neg (by simpa [List.isEmpty_iff] using h)]

theorem chooseTranslations_bothFail (lang : Str) (hasGoogleKey : Bool) :
    chooseTranslations lang none none hasGoogleKey = none := by
  unfold chooseTranslations
  by_cases h : deeplSupportedLangs.contains (lowerStr lang)
  · rw [if_pos h]
    cases hasGoogleKey <;> simp
  · rw [if_neg h]
    cases hasGoogleKey <;> simp

theorem batch_mem (md5 : Str → Str) (src cache : FlatMap) (k s : Str)
    (hsrc : lookupL src k = some (.vStr s))
    (hstale : entryUpToDate md5 (lookupL cache k) s = false) :
    (k, s) ∈ (scanKeys md5 src cache).2 := by
  rw [scanKeys_snd]
  apply List.mem_filterMap.mpr
  refine ⟨(k, .vStr s), mem_of_lookupL src k _ hsrc, ?_⟩
  simp only
  rw [if_neg (by rw [hstale]; simp)]

theorem batch_not_mem (md5 : Str → Str) (src cache : FlatMap) (k s : Str)
    (hnd : (src.map Prod.fst).Nodup)
    (hsrc : lookupL src k = some (.vStr s))
    (hup : entryUpToDate md5 (lookupL cache k) s = true) :
    k ∉ (scanKeys md5 src cache).2.map Prod.fst := by
  rw [scanKeys_snd]
  intro hmem
  obtain ⟨q, hq, hqe⟩ := List.mem_map.mp hmem
  obtain ⟨p, hp, hpe⟩ := List.mem_filterMap.mp hq
  obtain ⟨p1, p2⟩ := p
  cases p2 with
  | vStr s2 =>
      simp only at hpe
      by_cases hu2 : entryUpToDate md5 (lookupL cache p1) s2
      · rw [if_pos hu2] at hpe
        exact Option.noConfusion hpe
      · rw [if_neg hu2] at hpe
        injection hpe with hpe
        subst hpe
        simp only at hqe
        subst hqe
        rw [lookupL_of_mem_nodup src _ _ hnd hp] at hsrc
        injection hsrc with hsrc
        injection hsrc with hsrc
        subst hsrc
        rw [hup] at hu2
        exact hu2 rfl
  | vNum n => exact Option.noConfusion hpe
  | vBool b => exact Option.noConfusion hpe
  | vNull => exact Option.noConfusion hpe
  | vArr a => exact Option.noConfusion hpe
  | vObj o => exact Option.noConfusion hpe

theorem entryUpToDate_some (md5 : Str → Str) (ce : Option JVal) (s : Str)
    (h : entryUpToDate md5 ce s = true) :
    ∃ e, ce = some e ∧ isTranslationEntry e = true ∧
      getProp e keySourceHash = some (.vStr (md5 s)) := by
  cases ce with
  | none => exact Bool.noConfusion h
  | some e =>
      refine ⟨e, rfl, ?_, ?_⟩
      · unfold entryUpToDate at h
        exact (Bool.and_eq_true .. ▸ h).1
      · unfold entryUpToDate at h
        have h2 := (Bool.and_eq_true .. ▸ h).2
        exact eq_of_beq h2

theorem entryUpToDate_of (md5 : Str → Str) (e : JVal) (s : Str)
    (hte : isTranslationEntry e = true)
    (hhash : getProp e keySourceHash = some (.vStr (md5 s))) :
    entryUpToDate md5 (some e) s = true := by
  show (isTranslationEntry e && (getProp e keySourceHash == some (.vStr (md5 s)))) = true
  rw [hte, hhash]
  simp

theorem ovGo_isSome_mono (md5 : Str → Str) (src : FlatMap) (L : List (Str × Str))
    (a : FlatMap) (k : Str) (h : (lookupL a k).isSome) :
    (lookupL (L.foldl (ovGo md5 src) a) k).isSome := by
  induction L generalizing a with
  | nil => exact h
  | cons q L ih =>
      rw [List.foldl_cons]
      apply ih
      show (lookupL (ovGo md5 src a q) k).isSome
      unfold ovGo
      cases lookupL a q.1 with
      | none => exact h
      | some w =>
          cases lookupL src q.1 with
          | none => exact h
          | some sv =>
              cases sv with
              | vStr s2 =>
                  rw [lookupL_setKey]
                  by_cases h2 : k = q.1
                  · rw [if_pos h2]; rfl
                  · rwa [if_neg h2]
              | vNum n => exact h
              | vBool b => exact h
              | vNull => exact h
              | vArr el => exact h
              | vObj o => exact h

theorem applyOverrides_isSome_mono (md5 : Str → Str) (ft : FlatMap) (ov : OvTable)
    (ns lang : Str) (src : FlatMap) (k : Str) (h : (lookupL ft k).isSome) :
    (lookupL (applyOverrides md5 ft ov ns lang src) k).isSome := by
  cases hns : lookupL ov ns with
  | none => rw [applyOverrides_ns_none md5 ft ov ns lang src hns]; exact h
  | some nsOv =>
      cases hlang : lookupL nsOv lang with
      | none =>
          rw [applyOverrides_lang_none md5 ft ov ns lang src nsOv hns hlang]
          exact h
      | some langOv =>
          rw [applyOverrides_some md5 ft ov ns lang src nsOv langOv hns hlang]
          exact ovGo_isSome_mono md5 src langOv ft k h

theorem processBaseLanguage_eq_go (md5 : Str → Str) (src : FlatMap) :
    processBaseLanguage md5 src = src.foldl (baseGo md5) [] := rfl

theorem baseGo_step_keys (md5 : Str → Str) (a : FlatMap) (p : Str × JVal)
    (h : lookupL a p.1 = none) :
    (baseGo md5 a p).map Prod.fst = a.map Prod.fst ++ [p.1] := by
  obtain ⟨k0, v0⟩ := p
  have hs : ¬(lookupL a k0).isSome = true := by rw [h]; simp
  cases v0 with
  | vStr s =>
      show (setKey a k0 (mkEntry s (md5 s))).map Prod.fst = _
      rw [setKey_keys, if_neg hs]
  | vNum n => show (setKey a k0 _).map Prod.fst = _; rw [setKey_keys, if_neg hs]
  | vBool b => show (setKey a k0 _).map Prod.fst = _; rw [setKey_keys, if_neg hs]
  | vNull => show (setKey a k0 _).map Prod.fst = _; rw [setKey_keys, if_neg hs]
  | vArr el => show (setKey a k0 _).map Prod.fst = _; rw [setKey_keys, if_neg hs]
  | vObj o => show (setKey a k0 _).map Prod.fst = _; rw [setKey_keys, if_neg hs]

theorem baseGo_keys (md5 : Str → Str) (src : List (Str × JVal)) (acc : FlatMap)
    (hdisj : ∀ q ∈ src, lookupL acc q.1 = none)
    (hnd : (src.map Prod.fst).Nodup) :
    (src.foldl (baseGo md5) acc).map Prod.fst =
      acc.map Prod.fst ++ src.map Prod.fst := by
  induction src generalizing acc with
  | nil => simp
  | cons q rest ih =>
      simp only [List.map_cons, List.nodup_cons] at hnd
      rw [List.foldl_cons]
      rw [ih (baseGo md5 acc q) ?_ hnd.2]
      · rw [baseGo_step_keys md5 acc q (hdisj q (List.mem_cons_self _ _))]
        simp
      · intro q2 hq2
        have hk : (baseGo md5 acc q).map Prod.fst = acc.map Prod.fst ++ [q.1] :=
          baseGo_step_keys md5 acc q (hdisj q (List.mem_cons_self _ _))
        apply lookupL_eq_none_of_notMem
        rw [hk]
        intro hmem
        rcases List.mem_append.mp hmem with hmem | hmem
        · have := hdisj q2 (List.mem_cons_of_mem _ hq2)
          exact notMem_of_lookupL_eq_none _ _ this hmem
        · rcases List.mem_singleton.mp hmem with he
          exact hnd.1 (he ▸ List.mem_map_of_mem Prod.fst hq2)

theorem processBaseLanguage_keys (md5 : Str → Str) (src : FlatMap)
    (hnd : (src.map Prod.fst).Nodup) :
    (processBaseLanguage md5 src).map Prod.fst = src.map Prod.fst := by
  rw [processBaseLanguage_eq_go, baseGo_keys md5 src [] (fun q hq => rfl) hnd]
  rfl

theorem processLanguage_shape (md5 : Str → Str) (src cache : FlatMap) (ov : OvTable)
    (ns lang : Str) (provider : Option (List Str)) :
    ∃ ft, processLanguage md5 src cache ov ns lang provider =
      reorderBySource src ft := by
  unfold processLanguage
  by_cases h : (scanKeys md5 src cache).2.isEmpty
  · rw [if_pos h]
    exact ⟨_, rfl⟩
  · rw [if_neg h]
    cases provider with
    | none => exact ⟨_, rfl⟩
    | some trs => exact ⟨_, rfl⟩

theorem processLanguage_success_defined (md5 : Str → Str) (src cache : FlatMap)
    (ov : OvTable) (ns lang : Str) (trs : List Str)
    (hnd : (src.map Prod.fst).Nodup) :
    (processLanguage md5 src cache ov ns lang (some trs)).map Prod.fst =
      src.map Prod.fst := by
  by_cases hb : (scanKeys md5 src cache).2 = []
  · rw [processLanguage_empty md5 src cache ov ns lang (some trs) hb,
      reorderBySource_keys]
    rw [List.filter_eq_self.mpr ?_]
    intro p hp
    have hlk : lookupL src p.1 = some p.2 := lookupL_of_mem_nodup src p.1 p.2 hnd
      (by rw [show (p.1, p.2) = p from rfl]; exact hp)
    cases hv : p.2 with
    | vStr s =>
        rw [hv] at hlk
        have hup : entryUpToDate md5 (lookupL cache p.1) s = true := by
          rw [scanKeys_snd] at hb
          have hnone := List.filterMap_eq_nil_iff.mp hb _ hp
          rw [hv] at hnone
          simp only at hnone
          by_cases hu : entryUpToDate md5 (lookupL cache p.1) s
          · exact hu
          · rw [if_neg hu] at hnone
            exact Option.noConfusion hnone
        obtain ⟨e, he, _, _⟩ := entryUpToDate_some md5 _ _ hup
        rw [scanKeys_eq_go, scanGo_fst_lookup_str md5 cache src _ p.1 s hnd hlk]
        show (lookupL cache p.1).isSome = true
        rw [he]
        rfl
    | vNum n =>
        rw [hv] at hlk
        rw [scanKeys_eq_go,
          scanGo_fst_lookup_nonstr md5 cache src _ p.1 _ hnd hlk (by intro s h; exact JVal.noConfusion h)]
        rfl
    | vBool b =>
        rw [hv] at hlk
        rw [scanKeys_eq_go,
          scanGo_fst_lookup_nonstr md5 cache src _ p.1 _ hnd hlk (by intro s h; exact JVal.noConfusion h)]
        rfl
    | vNull =>
        rw [hv] at hlk
        rw [scanKeys_eq_go,
          scanGo_fst_lookup_nonstr md5 cache src _ p.1 _ hnd hlk (by intro s h; exact JVal.noConfusion h)]
        rfl
    | vArr el =>
        rw [hv] at hlk
        rw [scanKeys_eq_go,
          scanGo_fst_lookup_nonstr md5 cache src _ p.1 _ hnd hlk (by intro s h; exact JVal.noConfusion h)]
        rfl
    | vObj o =>
        rw [hv] at hlk
        rw [scanKeys_eq_go,
          scanGo_fst_lookup_nonstr md5 cache src _ p.1 _ hnd hlk (by intro s h; exact JVal.noConfusion h)]
        rfl
  · rw [processLanguage_succeed md5 src cache ov ns lang trs hb,
      reorderBySource_keys]
    rw [List.filter_eq_self.mpr ?_]
    intro p hp
    have hlk : lookupL src p.1 = some p.2 := lookupL_of_mem_nodup src p.1 p.2 hnd
      (by rw [show (p.1, p.2) = p from rfl]; exact hp)
    apply applyOverrides_isSome_mono
    cases hv : p.2 with
    | vStr s =>
        rw [hv] at hlk
        by_cases hu : entryUpToDate md5 (lookupL cache p.1) s
        · apply mergeResults_lookup_isSome
          right
          obtain ⟨e, he, _, _⟩ := entryUpToDate_some md5 _ _ hu
          rw [scanKeys_eq_go, scanGo_fst_lookup_str md5 cache src _ p.1 s hnd hlk]
          show (lookupL cache p.1).isSome = true
          rw [he]
          rfl
        · apply mergeResults_lookup_isSome
          left
          exact ⟨(p.1, s), batch_mem md5 src cache p.1 s hlk (by
            rw [Bool.eq_false_iff]; exact hu), rfl⟩
    | vNum n =>
        rw [hv] at hlk
        apply mergeResults_lookup_isSome
        right
        rw [scanKeys_eq_go,
          scanGo_fst_lookup_nonstr md5 cache src _ p.1 _ hnd hlk (by intro s h; exact JVal.noConfusion h)]
        rfl
    | vBool b =>
        rw [hv] at hlk
        apply mergeResults_lookup_isSome
        right
        rw [scanKeys_eq_go,
          scanGo_fst_lookup_nonstr md5 cache src _ p.1 _ hnd hlk (by intro s h; exact JVal.noConfusion h)]
        rfl
    | vNull =>
        rw [hv] at hlk
        apply mergeResults_lookup_isSome
        right
        rw [scanKeys_eq_go,
          scanGo_fst_lookup_nonstr md5 cache src _ p.1 _ hnd hlk (by intro s h; exact JVal.noConfusion h)]
        rfl
    | vArr el =>
        rw [hv] at hlk
        apply mergeResults_lookup_isSome
        right
        rw [scanKeys_eq_go,
          scanGo_fst_lookup_nonstr md5 cache src _ p.1 _ hnd hlk (by intro s h; exact JVal.noConfusion h)]
        rfl
    | vObj o =>
        rw [hv] at hlk
        apply mergeResults_lookup_isSome
        right
        rw [scanKeys_eq_go,
          scanGo_fst_lookup_nonstr md5 cache src _ p.1 _ hnd hlk (by intro s h; exact JVal.noConfusion h)]
        rfl

theorem matchPlaceholderCore_spec (opens rest1 m r : Str)
    (h : matchPlaceholderCore opens rest1 = some (m, r)) :
    m ++ r = opens ++ rest1 ∧ opens.length < m.length := by
  unfold matchPlaceholderCore at h
  have hjoin : rest1.takeWhile isWordChar ++ rest1.dropWhile isWordChar = rest1 :=
    List.takeWhile_append_dropWhile isWordChar rest1
  by_cases hw : (rest1.takeWhile isWordChar).isEmpty
  · simp [hw] at h
  · simp only [hw, Bool.false_eq_true, if_false] at h
    have hwlen : 0 < (rest1.takeWhile isWordChar).length := by
      cases he : rest1.takeWhile isWordChar with
      | nil => rw [he] at hw; simp at hw
      | cons a b => simp [he]
    split at h
    next d1 d2 r2 heq =>
      rw [heq] at hjoin
      by_cases h1 : d1 = '}'
      · rw [if_pos h1] at h
        by_cases h2 : d2 = '}'
        · rw [if_pos h2] at h
          injection h with h'
          injection h' with hm hr
          subst hm; subst hr
          refine ⟨?_, ?_⟩
          · conv_rhs => rw [← hjoin]
            simp
          · simp only [List.length_append, List.length_cons, List.length_nil]; omega
        · rw [if_neg h2] at h
          injection h with h'
          injection h' with hm hr
          subst hm; subst hr
          refine ⟨?_, ?_⟩
          · conv_rhs => rw [← hjoin]
            simp
          · simp only [List.length_append, List.length_cons, List.length_nil]; omega
      · rw [if_neg h1] at h; exact absurd h (by simp)
    next d1 heq =>
      rw [heq] at hjoin
      by_cases h1 : d1 = '}'
      · rw [if_pos h1] at h
        injection h with h'
        injection h' with hm hr
        subst hm; subst hr
        refine ⟨?_, ?_⟩
        · conv_rhs => rw [← hjoin]
          simp
        · simp only [List.length_append, List.length_cons, List.length_nil]; omega
      · rw [if_neg h1] at h; exact absurd h (by simp)
    next => exact absurd h (by simp)

theorem matchPlaceholder_spec (s m r : Str) (h : matchPlaceholder s = some (m, r)) :
    s = m ++ r ∧ m ≠ [] := by
  unfold matchPlaceholder at h
  cases s with
  | nil => exact absurd h (by simp)
  | cons c rest =>
      simp only at h
      by_cases hc : c = '{'
      · rw [if_pos hc] at h
        cases rest with
        | nil =>
            obtain ⟨h1, h2⟩ := matchPlaceholderCore_spec _ _ _ _ h
            refine ⟨by simpa [hc] using h1.symm, ?_⟩
            intro he; rw [he] at h2; simp at h2
        | cons c2 rest2 =>
            by_cases hc2 : c2 = '{'
            · simp only [if_pos hc2] at h
              obtain ⟨h1, h2⟩ := matchPlaceholderCore_spec _ _ _ _ h
              refine ⟨by simpa [hc, hc2] using h1.symm, ?_⟩
              intro he; rw [he] at h2; simp at h2
            · simp only [if_neg hc2] at h
              obtain ⟨h1, h2⟩ := matchPlaceholderCore_spec _ _ _ _ h
              refine ⟨by simpa [hc] using h1.symm, ?_⟩
              intro he; rw [he] at h2; simp at h2
      · simp [hc] at h

theorem matchPlaceholder_rest_lt (s m r : Str) (h : matchPlaceholder s = some (m, r)) :
    r.length < s.length := by
  obtain ⟨hs, hm⟩ := matchPlaceholder_spec s m r h
  rw [hs, List.length_append]
  have : 0 < m.length := List.length_pos.mpr hm
  omega

theorem findPlaceholdersFuel_adequate (fuel fuel' : Nat) (s : Str)
    (h : s.length ≤ fuel) (h' : s.length ≤ fuel') :
    findPlaceholdersFuel fuel s = findPlaceholdersFuel fuel' s := by
  induction fuel using Nat.strong_induction_on generalizing fuel' s with
  | _ fuel ih =>
      cases s with
      | nil => cases fuel <;> cases fuel' <;> simp [findPlaceholdersFuel]
      | cons c rest =>
          cases fuel with
          | zero => simp at h
          | succ f =>
              cases fuel' with
              | zero => simp at h'
              | succ f' =>
                  simp only [findPlaceholdersFuel]
                  cases hm : matchPlaceholder (c :: rest) with
                  | some p =>
                      obtain ⟨m, r⟩ := p
                      have hlt := matchPlaceholder_rest_lt _ _ _ hm
                      simp only [List.length_cons] at h h' hlt
                      show m :: findPlaceholdersFuel f r = m :: findPlaceholdersFuel f' r
                      rw [ih f (by omega) f' r (by omega) (by omega)]
                  | none =>
                      simp only [List.length_cons] at h h'
                      show findPlaceholdersFuel f rest = findPlaceholdersFuel f' rest
                      rw [ih f (by omega) f' rest (by omega) (by omega)]

theorem findPlaceholders_nil : findPlaceholders [] = [] := rfl

theorem findPlaceholders_cons (c : Char) (rest : Str) :
    findPlaceholders (c :: rest) =
      (match matchPlaceholder (c :: rest) with
       | some (m, r) => m :: findPlaceholders r
       | none => findPlaceholders rest) := by
  show findPlaceholdersFuel (rest.length + 1) (c :: rest) = _
  simp only [findPlaceholdersFuel]
  cases hm : matchPlaceholder (c :: rest) with
  | some p =>
      obtain ⟨m, r⟩ := p
      have hlt := matchPlaceholder_rest_lt _ _ _ hm
      simp only [List.length_cons] at hlt
      show m :: findPlaceholdersFuel rest.length r = m :: findPlaceholders r
      unfold findPlaceholders
      rw [findPlaceholdersFuel_adequate rest.length r.length r (by omega) (le_refl _)]
  | none => rfl

theorem ciIsPrefix_length (var s : Str) (h : ciIsPrefix var s = true) :
    var.length ≤ s.length := by
  induction var generalizing s with
  | nil => simp
  | cons p ps ih =>
      cases s with
      | nil => simp [ciIsPrefix] at h
      | cons t ts =>
          simp only [ciIsPrefix, Bool.and_eq_true] at h
          simpa [Nat.succ_le_succ_iff] using ih ts h.2

theorem matchWsVarWs_rest_lt (var s c r : Str) (hv : var ≠ [])
    (h : matchWsVarWs var s = some (c, r)) : r.length < s.length := by
  unfold matchWsVarWs at h
  by_cases hp : ciIsPrefix var (s.dropWhile isJsSpace) = true
  · rw [if_pos hp] at h
    injection h with h'
    injection h' with hc hr2
    have hr : r = ((s.dropWhile isJsSpace).drop var.length).dropWhile isJsSpace := hr2.symm
    have h1 : (((s.dropWhile isJsSpace).drop var.length).dropWhile isJsSpace).length ≤
        ((s.dropWhile isJsSpace).drop var.length).length :=
      (List.dropWhile_sublist _).length_le
    have h2 : ((s.dropWhile isJsSpace).drop var.length).length =
        (s.dropWhile isJsSpace).length - var.length := List.length_drop _ _
    have h3 : (s.dropWhile isJsSpace).length ≤ s.length :=
      (List.dropWhile_sublist _).length_le
    have h4 : var.length ≤ (s.dropWhile isJsSpace).length := ciIsPrefix_length _ _ hp
    have h5 : 0 < var.length := List.length_pos.mpr hv
    rw [hr]
    omega
  · simp [hp] at h

theorem replaceAllFuel_adequate (var repl : Str) (hv : var ≠ [])
    (fuel fuel' : Nat) (s : Str) (h : s.length ≤ fuel) (h' : s.length ≤ fuel') :
    replaceAllFuel var repl fuel s = replaceAllFuel var repl fuel' s := by
  induction fuel using Nat.strong_induction_on generalizing fuel' s with
  | _ fuel ih =>
      cases s with
      | nil => cases fuel <;> cases fuel' <;> simp [replaceAllFuel]
      | cons c rest =>
          cases fuel with
          | zero => simp at h
          | succ f =>
              cases fuel' with
              | zero => simp at h'
              | succ f' =>
                  simp only [replaceAllFuel]
                  cases hm : matchWsVarWs var (c :: rest) with
                  | some p =>
                      obtain ⟨consumed, r⟩ := p
                      have hlt := matchWsVarWs_rest_lt var (c :: rest) _ r hv hm
                      simp only [List.length_cons] at h h' hlt
                      show repl ++ replaceAllFuel var repl f r = repl ++ replaceAllFuel var repl f' r
                      rw [ih f (by omega) f' r (by omega) (by omega)]
                  | none =>
                      simp only [List.length_cons] at h h'
                      show c :: replaceAllFuel var repl f rest = c :: replaceAllFuel var repl f' rest
                      rw [ih f (by omega) f' rest (by omega) (by omega)]

theorem replaceAllWsVarWs_nil (var repl : Str) : replaceAllWsVarWs var repl [] = [] := by
  unfold replaceAllWsVarWs
  cases var <;> simp [replaceAllFuel]

theorem replaceAllWsVarWs_cons (var repl : Str) (hv : var ≠ []) (c : Char) (rest : Str) :
    replaceAllWsVarWs var repl (c :: rest) =
      (match matchWsVarWs var (c :: rest) with
       | some p => repl ++ replaceAllWsVarWs var repl p.2
       | none => c :: replaceAllWsVarWs var repl rest) := by
  conv_lhs => rw [replaceAllWsVarWs]
  rw [if_neg (by simpa using hv)]
  show replaceAllFuel var repl (rest.length + 1) (c :: rest) = _
  simp only [replaceAllFuel]
  cases hm : matchWsVarWs var (c :: rest) with
  | some p =>
      obtain ⟨consumed, r⟩ := p
      have hlt := matchWsVarWs_rest_lt var (c :: rest) _ r hv hm
      simp only [List.length_cons] at hlt
      show repl ++ replaceAllFuel var repl rest.length r = repl ++ replaceAllWsVarWs var repl r
      unfold replaceAllWsVarWs
      rw [if_neg (by simpa using hv)]
      rw [replaceAllFuel_adequate var repl hv rest.length r.length r (by omega) (le_refl _)]
  | none =>
      show c :: replaceAllFuel var repl rest.length rest = c :: replaceAllWsVarWs var repl rest
      unfold replaceAllWsVarWs
      rw [if_neg (by simpa using hv)]

theorem claimTerminalLeaf_eq (v : JVal) : claimTerminalLeaf v = isFlattenLeaf v := by
  cases v with
  | vStr s => rfl
  | vNum n => rfl
  | vBool b => rfl
  | vNull => rfl
  | vArr el => rfl
  | vObj fields =>
      show _ = (isTranslationEntry (.vObj fields) || !isPlainObj (.vObj fields))
      show _ = (isTranslationEntry (.vObj fields) || false)
      rw [Bool.or_false]
      rfl

/-- C8: flattenObject treats as a terminal leaf (never recursed into) every
value that is an array, a primitive (non-object or null), or an object
containing both a translation and a sourceHash property — such a field is
emitted whole under its dot-joined key; every other object is recursed into
with the dot-joined key as the new prefix. -/
theorem claim_C8_flatten_leaf_policy (pre k : Str) (v : JVal) :
    (claimTerminalLeaf v = true →
      flattenVal (.vObj [(k, v)]) pre = [(joinKey pre k, v)]) ∧
    (claimTerminalLeaf v = false →
      flattenVal (.vObj [(k, v)]) pre = flattenVal v (joinKey pre k)) := by
  rw [claimTerminalLeaf_eq]
  constructor
  · intro h
    show (if isFlattenLeaf v then
        flattenFields [] pre (setKey [] (joinKey pre k) v)
      else
        flattenFields [] pre (objAssign [] (flattenVal v (joinKey pre k)))) = _
    rw [if_pos h]
    show setKey [] (joinKey pre k) v = _
    rw [setKey_of_lookup_none [] (joinKey pre k) v rfl]
    rfl
  · intro h
    show (if isFlattenLeaf v then
        flattenFields [] pre (setKey [] (joinKey pre k) v)
      else
        flattenFields [] pre (objAssign [] (flattenVal v (joinKey pre k)))) = _
    rw [if_neg (by rw [h]; simp)]
    show objAssign [] (flattenVal v (joinKey pre k)) = _
    exact objAssign_nil _ (flattenVal_keys_nodup v _)

theorem claim_C8_flatten_leaf_policy_witness :
    (claimTerminalLeaf (mkEntry "t".toList "h".toList) = true ∧
      flattenVal (.vObj [("a".toList, mkEntry "t".toList "h".toList)]) [] =
        [(joinKey [] "a".toList, mkEntry "t".toList "h".toList)]) ∧
    (claimTerminalLeaf (.vObj [("b".toList, .vNum 1)]) = false ∧
      flattenVal (.vObj [("a".toList, .vObj [("b".toList, .vNum 1)])]) [] =
        flattenVal (.vObj [("b".toList, .vNum 1)]) (joinKey [] "a".toList)) :=
  ⟨⟨by decide,
    (claim_C8_flatten_leaf_policy [] ("a".toList) (mkEntry "t".toList "h".toList)).1
      (by decide)⟩,
   ⟨by decide,
    (claim_C8_flatten_leaf_policy [] ("a".toList) (.vObj [("b".toList, .vNum 1)])).2
      (by decide)⟩⟩

/-- C1 as stated is false: with an override configured for a key whose
cached entry is up to date (and another key forcing a translation pass),
the final output no longer contains the cached entry unchanged. -/
theorem claim_C1_counterexample :
    entryUpToDate (fun s => s)
      (lookupL [("a".toList, mkEntry "T".toList "x".toList)] "a".toList)
      "x".toList = true ∧
    lookupL
      (processLanguage (fun s => s)
        [("a".toList, .vStr "x".toList), ("b".toList, .vStr "y".toList)]
        [("a".toList, mkEntry "T".toList "x".toList)]
        [("ns".toList, [("en".toList, [("a".toList, "F".toList)])])]
        "ns".toList "en".toList (some ["Ty".toList]))
      "a".toList ≠
      lookupL [("a".toList, mkEntry "T".toList "x".toList)] "a".toList := by
  refine ⟨by decide, ?_⟩
  decide

/-- C1 (amended): for every source key holding a string, if the loaded
cache contains a Translation Entry for that key whose sourceHash equals
the hash of the current source string, the key is not added to the batch
sent to the providers, and — provided no override targets that
(namespace, language, key) — the final output contains the cached value
unchanged; otherwise (no such entry, wrong shape, or hash mismatch) the
key is added to the to-translate batch. -/
theorem claim_C1_cache_decision
    (md5 : Str → Str) (src cache : FlatMap) (ov : OvTable) (ns lang : Str)
    (provider : Option (List Str)) (k s : Str)
    (hnd : (src.map Prod.fst).Nodup)
    (hsrc : lookupL src k = some (.vStr s)) :
    ((∃ e, lookupL cache k = some e ∧ isTranslationEntry e = true ∧
        getProp e keySourceHash = some (.vStr (md5 s))) →
      k ∉ (scanKeys md5 src cache).2.map Prod.fst ∧
      (ovLookup ov ns lang k = none →
        lookupL (processLanguage md5 src cache ov ns lang provider) k =
          lookupL cache k)) ∧
    ((∀ e, lookupL cache k = some e →
        ¬(isTranslationEntry e = true ∧
          getProp e keySourceHash = some (.vStr (md5 s)))) →
      k ∈ (scanKeys md5 src cache).2.map Prod.fst) := by
  constructor
  · rintro ⟨e, he, hte, hh⟩
    have hup : entryUpToDate md5 (lookupL cache k) s = true := by
      rw [he]
      exact entryUpToDate_of md5 e s hte hh
    have hnb : k ∉ (scanKeys md5 src cache).2.map Prod.fst :=
      batch_not_mem md5 src cache k s hnd hsrc hup
    refine ⟨hnb, ?_⟩
    intro hov
    have hmem : k ∈ src.map Prod.fst := mem_of_lookupL_eq_some src k _ hsrc
    have hft : lookupL (scanKeys md5 src cache).1 k = lookupL cache k := by
      rw [scanKeys_eq_go]
      exact scanGo_fst_lookup_str md5 cache src _ k s hnd hsrc
    by_cases hb : (scanKeys md5 src cache).2 = []
    · rw [processLanguage_empty md5 src cache ov ns lang provider hb]
      rw [he] at hft
      rw [reorderBySource_lookup src _ k e hmem hft, he]
    · cases provider with
      | none =>
          rw [processLanguage_fail md5 src cache ov ns lang hb]
          have hao : lookupL
              (applyOverrides md5 (scanKeys md5 src cache).1 ov ns lang src) k =
              lookupL cache k := by
            rw [applyOverrides_lookup_none md5 _ ov ns lang src k hov, hft]
          rw [he] at hao
          rw [reorderBySource_lookup src _ k e hmem hao, he]
      | some trs =>
          rw [processLanguage_succeed md5 src cache ov ns lang trs hb]
          have hmg : lookupL
              (mergeResults md5 (scanKeys md5 src cache).1
                (scanKeys md5 src cache).2 trs) k = lookupL cache k := by
            rw [mergeResults_lookup_notin md5 _ _ trs k ?_, hft]
            intro q hq he2
            exact hnb (he2 ▸ List.mem_map_of_mem Prod.fst hq)
          have hao : lookupL
              (applyOverrides md5
                (mergeResults md5 (scanKeys md5 src cache).1
                  (scanKeys md5 src cache).2 trs) ov ns lang src) k =
              lookupL cache k := by
            rw [applyOverrides_lookup_none md5 _ ov ns lang src k hov, hmg]
          rw [he] at hao
          rw [reorderBySource_lookup src _ k e hmem hao, he]
  · intro hnot
    have hstale : entryUpToDate md5 (lookupL cache k) s = false := by
      cases hc : lookupL cache k with
      | none => rfl
      | some e =>
          rw [Bool.eq_false_iff]
          intro hup
          obtain ⟨e2, he2, hte2, hh2⟩ := entryUpToDate_some md5 (some e) s hup
          injection he2 with he2
          subst he2
          exact hnot e hc ⟨hte2, hh2⟩
    exact List.mem_map_of_mem Prod.fst (batch_mem md5 src cache k s hsrc hstale)

theorem claim_C1_cache_decision_witness :
    ("a".toList ∉ (scanKeys (fun s => s)
        [("a".toList, .vStr "x".toList)]
        [("a".toList, mkEntry "T".toList "x".toList)]).2.map Prod.fst) ∧
    lookupL (processLanguage (fun s => s)
        [("a".toList, .vStr "x".toList)]
        [("a".toList, mkEntry "T".toList "x".toList)]
        [] "ns".toList "en".toList none) "a".toList =
      lookupL [("a".toList, mkEntry "T".toList "x".toList)] "a".toList := by
  have h := (claim_C1_cache_decision (fun s => s)
    [("a".toList, .vStr "x".toList)]
    [("a".toList, mkEntry "T".toList "x".toList)]
    [] "ns".toList "en".toList none "a".toList "x".toList
    (by decide) (by decide)).1
    ⟨mkEntry "T".toList "x".toList, by decide, by decide, by decide⟩
  exact ⟨h.1, h.2 (by decide)⟩

/-- C3 as stated is false: when both providers fail and a source key has
no cached entry, the written output omits that key entirely. -/
theorem claim_C3_counterexample :
    lookupL
      (processLanguage (fun s => s) [("a".toList, .vStr "x".toList)] [] []
        "ns".toList "en".toList
        (chooseTranslations "en".toList none none false))
      "a".toList = none ∧
    "a".toList ∈ ([("a".toList, JVal.vStr "x".toList)] : FlatMap).map Prod.fst := by
  refine ⟨?_, by decide⟩
  decide

/-- C3 (amended): the flat map written for any target language lists keys
in source order with no duplicates (a sublist of the source keys); it
covers every source key whenever the providers returned a batch result,
and the base-language file always covers every source key.  Keys can only
be missing when the whole batch translation failed and they had no
fallback value. -/
theorem claim_C3_output_key_invariant
    (md5 : Str → Str) (src cache : FlatMap) (ov : OvTable) (ns lang : Str)
    (provider : Option (List Str)) (hnd : (src.map Prod.fst).Nodup) :
    ((processLanguage md5 src cache ov ns lang provider).map Prod.fst).Sublist
        (src.map Prod.fst) ∧
    ((processLanguage md5 src cache ov ns lang provider).map Prod.fst).Nodup ∧
    (∀ trs, provider = some trs →
      (processLanguage md5 src cache ov ns lang provider).map Prod.fst =
        src.map Prod.fst) ∧
    (processBaseLanguage md5 src).map Prod.fst = src.map Prod.fst := by
  obtain ⟨ft, hft⟩ := processLanguage_shape md5 src cache ov ns lang provider
  have hsub : ((processLanguage md5 src cache ov ns lang provider).map
      Prod.fst).Sublist (src.map Prod.fst) := by
    rw [hft, reorderBySource_keys]
    exact (List.filter_sublist src).map Prod.fst
  refine ⟨hsub, hnd.sublist hsub, ?_, processBaseLanguage_keys md5 src hnd⟩
  intro trs htrs
  subst htrs
  exact processLanguage_success_defined md5 src cache ov ns lang trs hnd

theorem claim_C3_output_key_invariant_witness :
    ((processLanguage (fun s => s) [("a".toList, .vStr "x".toList)] [] []
        "ns".toList "en".toList (some ["Tx".toList])).map Prod.fst).Sublist
      (([("a".toList, JVal.vStr "x".toList)] : FlatMap).map Prod.fst) ∧
    (processLanguage (fun s => s) [("a".toList, .vStr "x".toList)] [] []
        "ns".toList "en".toList (some ["Tx".toList])).map Prod.fst =
      ([("a".toList, JVal.vStr "x".toList)] : FlatMap).map Prod.fst := by
  have h := claim_C3_output_key_invariant (fun s => s)
    [("a".toList, .vStr "x".toList)] [] [] "ns".toList "en".toList
    (some ["Tx".toList]) (by decide)
  exact ⟨h.1, h.2.2.1 ["Tx".toList] rfl⟩

/-- C4 as stated is false: when the whole batch fails but an override
targets an affected key, the written output carries the override, not the
cached entry unchanged. -/
theorem claim_C4_counterexample :
    lookupL
      (processLanguage (fun s => s)
        [("a".toList, .vStr "x2".toList)]
        [("a".toList, mkEntry "T".toList "x1".toList)]
        [("ns".toList, [("en".toList, [("a".toList, "F".toList)])])]
        "ns".toList "en".toList
        (chooseTranslations "en".toList none none true))
      "a".toList = some (mkEntry "F".toList "x2".toList) ∧
    mkEntry "F".toList "x2".toList ≠ mkEntry "T".toList "x1".toList := by
  refine ⟨?_, by decide⟩
  decide

/-- C4 (amended): if translation for a batch fails entirely (both
providers return the no-result sentinel or are unavailable), then every
affected key that has a previously cached Translation Entry keeps that
cached value unchanged in the written output, unless an override for that
(namespace, language, key) applies; and the language loop still produces
one output per requested language. -/
theorem claim_C4_failure_retention
    (md5 : Str → Str) (src cache : FlatMap) (ov : OvTable) (ns lang : Str)
    (hasG : Bool) (k s : Str) (e : JVal)
    (hnd : (src.map Prod.fst).Nodup)
    (hsrc : lookupL src k = some (.vStr s))
    (hcache : lookupL cache k = some e)
    (hte : isTranslationEntry e = true)
    (hstale : entryUpToDate md5 (lookupL cache k) s = false)
    (hov : ovLookup ov ns lang k = none)
    (langs : List Str) (cacheOf : Str → FlatMap)
    (providerOf : Str → Option (List Str)) (baseLang : Str) :
    lookupL (processLanguage md5 src cache ov ns lang
        (chooseTranslations lang none none hasG)) k = some e ∧
    (runAllLanguages md5 src ov ns baseLang langs cacheOf providerOf).length =
      langs.length := by
  constructor
  · rw [chooseTranslations_bothFail lang hasG]
    have hb : (scanKeys md5 src cache).2 ≠ [] :=
      List.ne_nil_of_mem (batch_mem md5 src cache k s hsrc hstale)
    rw [processLanguage_fail md5 src cache ov ns lang hb]
    have hft : lookupL (scanKeys md5 src cache).1 k = some e := by
      rw [scanKeys_eq_go]
      rw [scanGo_fst_lookup_str md5 cache src _ k s hnd hsrc]
      exact hcache
    have hao : lookupL
        (applyOverrides md5 (scanKeys md5 src cache).1 ov ns lang src) k =
        some e := by
      rw [applyOverrides_lookup_none md5 _ ov ns lang src k hov]
      exact hft
    exact reorderBySource_lookup src _ k e
      (mem_of_lookupL_eq_some src k _ hsrc) hao
  · unfold runAllLanguages
    rw [List.length_map]

theorem claim_C4_failure_retention_witness :
    lookupL (processLanguage (fun s => s)
        [("a".toList, .vStr "x2".toList)]
        [("a".toList, mkEntry "T".toList "x1".toList)]
        [] "ns".toList "en".toList
        (chooseTranslations "en".toList none none true))
      "a".toList = some (mkEntry "T".toList "x1".toList) ∧
    (runAllLanguages (fun s => s) [("a".toList, .vStr "x2".toList)] []
        "ns".toList "tr".toList ["en".toList] (fun _ => [])
        (fun _ => none)).length = (["en".toList] : List Str).length :=
  claim_C4_failure_retention (fun s => s)
    [("a".toList, .vStr "x2".toList)]
    [("a".toList, mkEntry "T".toList "x1".toList)]
    [] "ns".toList "en".toList true "a".toList "x2".toList
    (mkEntry "T".toList "x1".toList)
    (by decide) (by decide) (by decide) (by decide) (by decide) (by decide)
    ["en".toList] (fun _ => []) (fun _ => none) "tr".toList

/-- C7 as stated is false: an override whose key holds a non-string source
value is skipped, leaving the passthrough value in the output. -/
theorem claim_C7_counterexample :
    ovLookup [("ns".toList, [("en".toList, [("a".toList, "F".toList)])])]
      "ns".toList "en".toList "a".toList = some "F".toList ∧
    lookupL
      (processLanguage (fun s => s)
        [("a".toList, .vNum 5), ("b".toList, .vStr "y".toList)]
        []
        [("ns".toList, [("en".toList, [("a".toList, "F".toList)])])]
        "ns".toList "en".toList (some ["By".toList]))
      "a".toList = some (.vNum 5) := by
  refine ⟨by decide, ?_⟩
  decide

/-- C7 (amended): for every (namespace, language, key) present in the
override table, if the key's current source value is a string, at least
one key needed translation in this run (so the override step executes),
and the providers returned a result, then the final output for that key is
the forced string with sourceHash recomputed from the current source text
(not from the override string). -/
theorem claim_C7_override_applied
    (md5 : Str → Str) (src cache : FlatMap) (ov : OvTable) (ns lang : Str)
    (trs : List Str) (k s f : Str)
    (nsOv : List (Str × List (Str × Str))) (langOv : List (Str × Str))
    (hnd : (src.map Prod.fst).Nodup)
    (hns : lookupL ov ns = some nsOv)
    (hlang : lookupL nsOv lang = some langOv)
    (hndL : (langOv.map Prod.fst).Nodup)
    (hkey : lookupL langOv k = some f)
    (hsrc : lookupL src k = some (.vStr s))
    (hbatch : (scanKeys md5 src cache).2 ≠ []) :
    lookupL (processLanguage md5 src cache ov ns lang (some trs)) k =
      some (mkEntry f (md5 s)) := by
  rw [processLanguage_succeed md5 src cache ov ns lang trs hbatch]
  have hms : (lookupL (mergeResults md5 (scanKeys md5 src cache).1
      (scanKeys md5 src cache).2 trs) k).isSome := by
    by_cases hu : entryUpToDate md5 (lookupL cache k) s
    · apply mergeResults_lookup_isSome
      right
      obtain ⟨e, he, _, _⟩ := entryUpToDate_some md5 _ _ hu
      rw [scanKeys_eq_go, scanGo_fst_lookup_str md5 cache src _ k s hnd hsrc]
      show (lookupL cache k).isSome = true
      rw [he]
      rfl
    · apply mergeResults_lookup_isSome
      left
      exact ⟨(k, s), batch_mem md5 src cache k s hsrc
        (Bool.eq_false_iff.mpr hu), rfl⟩
  have hao := applyOverrides_lookup_applied md5
    (mergeResults md5 (scanKeys md5 src cache).1 (scanKeys md5 src cache).2 trs)
    ov ns lang src k s f nsOv langOv hns hlang hndL hkey hms hsrc
  exact reorderBySource_lookup src _ k _
    (mem_of_lookupL_eq_some src k _ hsrc) hao

theorem claim_C7_override_applied_witness :
    lookupL (processLanguage (fun s => s)
        [("a".toList, .vStr "x".toList)]
        []
        [("ns".toList, [("en".toList, [("a".toList, "F".toList)])])]
        "ns".toList "en".toList (some ["Tx".toList]))
      "a".toList = some (mkEntry "F".toList "x".toList) :=
  claim_C7_override_applied (fun s => s)
    [("a".toList, .vStr "x".toList)] []
    [("ns".toList, [("en".toList, [("a".toList, "F".toList)])])]
    "ns".toList "en".toList ["Tx".toList] "a".toList "x".toList "F".toList
    [("en".toList, [("a".toList, "F".toList)])] [("a".toList, "F".toList)]
    (by decide) (by decide) (by decide) (by decide) (by decide) (by decide)
    (by decide)

theorem dropWhile_head_not (p : Char → Bool) (l : List Char) (c : Char) (rest : Str)
    (h : l.dropWhile p = c :: rest) : p c = false := by
  induction l with
  | nil => exact List.noConfusion h
  | cons a tl ih =>
      rw [List.dropWhile_cons] at h
      by_cases ha : p a = true
      · rw [if_pos ha] at h
        exact ih h
      · rw [if_neg ha] at h
        injection h with h1 h2
        subst h1
        exact Bool.eq_false_iff.mpr ha

theorem trimStr_eq_nil_all_ws (tr : Str) (h : trimStr tr = []) :
    ∀ c ∈ tr, isJsSpace c = true := by
  have h1 : (trimLeft tr).reverse.dropWhile isJsSpace = [] := by
    unfold trimStr trimRight at h
    rwa [List.reverse_eq_nil_iff] at h
  have h2 : ∀ c ∈ (trimLeft tr).reverse, isJsSpace c = true :=
    List.dropWhile_eq_nil_iff.mp h1
  have h3 : trimLeft tr = [] := by
    cases hl : trimLeft tr with
    | nil => rfl
    | cons c rest =>
        have hc : isJsSpace c = false := dropWhile_head_not isJsSpace tr c rest hl
        have hm : c ∈ (trimLeft tr).reverse := by
          rw [hl]; simp
        rw [h2 c hm] at hc
        exact Bool.noConfusion hc
  unfold trimLeft at h3
  exact List.dropWhile_eq_nil_iff.mp h3

theorem trailingWs_of_all_ws (tr : Str) (h : ∀ c ∈ tr, isJsSpace c = true) :
    trailingWs tr = tr := by
  unfold trailingWs
  rw [List.takeWhile_eq_self_iff.mpr (fun c hc => h c (List.mem_reverse.mp hc))]
  simp

theorem trimRight_reverse_eq (s : Str) :
    (trimRight s).reverse = s.reverse.dropWhile isJsSpace := by
  unfold trimRight
  rw [List.reverse_reverse]

theorem reverse_drop_eq_take (l : Str) (n : Nat) :
    (l.reverse.drop n).reverse = l.take (l.length - n) := by
  rw [List.reverse_drop, List.reverse_reverse, List.length_reverse]

theorem stripSuffixWs_eq_drop (pat s : Str) :
    stripSuffixWs pat s = dropSuffixWs pat s := by
  unfold stripSuffixWs dropSuffixWs
  have hrev : (trimRight s).reverse = s.reverse.dropWhile isJsSpace :=
    trimRight_reverse_eq s
  have hcond : pat.isSuffixOf (trimRight s) =
      pat.reverse.isPrefixOf (s.reverse.dropWhile isJsSpace) := by
    show pat.reverse.isPrefixOf (trimRight s).reverse = _
    rw [hrev]
  by_cases hc : pat.isSuffixOf (trimRight s)
  · rw [if_pos hc, if_pos (by rw [← hcond]; exact hc)]
    rw [← hrev, reverse_drop_eq_take]
  · rw [if_neg hc, if_neg (by rw [← hcond]; exact hc)]

theorem stripPunctWs_eq_drop (s : Str) : stripPunctWs s = dropPunctWs s := by
  unfold stripPunctWs dropPunctWs
  have hrev : (trimRight s).reverse = s.reverse.dropWhile isJsSpace :=
    trimRight_reverse_eq s
  rw [← hrev]
  show (match (trimRight s).getLast? with
    | some c => if c = '.' || c = '!' || c = '?' then (trimRight s).dropLast else s
    | none => s) =
    (match (trimRight s).reverse with
    | c :: rest => if c = '.' || c = '!' || c = '?' then rest.reverse else s
    | [] => s)
  rw [List.getLast?_eq_head?_reverse]
  cases hr : (trimRight s).reverse with
  | nil => rfl
  | cons c rest =>
      simp only [List.head?_cons]
      by_cases hc : c = '.' || c = '!' || c = '?'
      · rw [if_pos (by simpa using hc), if_pos (by simpa using hc)]
        rw [List.dropLast_eq_take, ← reverse_drop_eq_take, hr]
        rfl
      · rw [if_neg (by simpa using hc), if_neg (by simpa using hc)]

theorem trimStr_ne_nil_isEmpty (s : Str) (h : trimStr s ≠ []) :
    (trimStr s).isEmpty = false := by
  cases he : trimStr s with
  | nil => exact absurd he h
  | cons c rest => rfl

/-- C6 as stated is false: a source text that is empty (after trimming)
does not end in terminal punctuation, yet normalization returns the raw
translation unchanged instead of stripping its trailing period. -/
theorem claim_C6_counterexample :
    sourceEndsWithPunct (trimStr []) = false ∧
    normalizeTranslationPunctuation [] ("Okay.".toList) = "Okay.".toList ∧
    "Okay.".toList ≠ "Okay".toList := by
  refine ⟨by decide, by decide, by decide⟩

/-- C6 (amended): for every source text that is nonempty after trimming
and does not end (after trimming) in `.`, `!`, `?`, `...` or `…`,
normalization returns the trimmed translated text with a trailing
ellipsis and then a single trailing `.`, `!` or `?` removed (each removal
also consuming whitespace before the end), re-appending the translated
text's original trailing whitespace; in particular for source Tamam and
raw translation Okay. the result is Okay. -/
theorem claim_C6_punctuation_normalization (src tr : Str)
    (hs : trimStr src ≠ [])
    (hp : sourceEndsWithPunct (trimStr src) = false) :
    normalizeTranslationPunctuation src tr =
      claimStripPunct (trimStr tr) ++ trailingWs tr := by
  unfold normalizeTranslationPunctuation
  by_cases he : trimStr tr = []
  · rw [if_pos (by rw [he, trimStr_ne_nil_isEmpty src hs]; rfl)]
    rw [he]
    rw [show claimStripPunct [] = [] from by decide]
    rw [List.nil_append]
    rw [trailingWs_of_all_ws tr (trimStr_eq_nil_all_ws tr he)]
  · rw [if_neg (by
      rw [trimStr_ne_nil_isEmpty src hs, trimStr_ne_nil_isEmpty tr he]
      simp)]
    rw [if_neg (by rw [hp]; simp)]
    show stripPunctWs (stripSuffixWs [ellipsisChar]
        (stripSuffixWs "...".toList (trimStr tr))) ++ trailingWs tr = _
    unfold claimStripPunct
    rw [stripSuffixWs_eq_drop, stripSuffixWs_eq_drop, stripPunctWs_eq_drop]

theorem claim_C6_punctuation_normalization_witness :
    trimStr ("Tamam".toList) ≠ [] ∧
    sourceEndsWithPunct (trimStr ("Tamam".toList)) = false ∧
    normalizeTranslationPunctuation ("Tamam".toList) ("Okay.".toList) =
      "Okay".toList := by
  refine ⟨by decide, by decide, ?_⟩
  rw [claim_C6_punctuation_normalization ("Tamam".toList) ("Okay.".toList)
    (by decide) (by decide)]
  decide

theorem unflattenList_eq_foldInsert (m : FlatMap) :
    unflattenList m = foldInsert [] m := rfl

theorem firstSeg_dotFree (k : Str) (h : dotFree k = true) : firstSeg k = k := by
  unfold firstSeg
  exact List.takeWhile_eq_self_iff.mpr (fun c hc => by
    have := List.all_eq_true.mp h c hc
    simpa using this)

theorem firstSeg_join (k k2 : Str) (h : dotFree k = true) :
    firstSeg (k ++ '.' :: k2) = k := by
  unfold firstSeg
  induction k with
  | nil =>
      rw [List.nil_append, List.takeWhile_cons]
      rw [if_neg (by decide)]
  | cons c rest ih =>
      simp only [dotFree, List.all_cons, Bool.and_eq_true] at h
      rw [List.cons_append, List.takeWhile_cons]
      rw [if_pos (by simpa using h.1)]
      rw [ih h.2]

theorem splitDots_ne_nil (k : Str) : splitDots k ≠ [] := by
  cases k with
  | nil => exact fun h => List.noConfusion h
  | cons c rest =>
      unfold splitDots
      by_cases hc : c = '.'
      · rw [if_pos hc]; simp
      · rw [if_neg hc]
        cases splitDots rest <;> simp

theorem splitDots_cons_ne (c : Char) (rest : Str) (hc : ¬ c = '.')
    (l : Str) (ls : List Str) (hr : splitDots rest = l :: ls) :
    splitDots (c :: rest) = (c :: l) :: ls := by
  unfold splitDots
  rw [if_neg hc, hr]

theorem splitDots_dotFree (k : Str) (hne : k ≠ []) (h : dotFree k = true) :
    splitDots k = [k] := by
  induction k with
  | nil => exact absurd rfl hne
  | cons c rest ih =>
      simp only [dotFree, List.all_cons, Bool.and_eq_true] at h
      unfold splitDots
      rw [if_neg (by simpa using h.1)]
      cases hr : rest with
      | nil => subst hr; rfl
      | cons c2 r2 =>
          rw [← hr, ih (by rw [hr]; simp) h.2]

theorem splitDots_join (k k2 : Str) (h : dotFree k = true) :
    splitDots (k ++ '.' :: k2) = k :: splitDots k2 := by
  induction k with
  | nil => rfl
  | cons c rest ih =>
      simp only [dotFree, List.all_cons, Bool.and_eq_true] at h
      rw [List.cons_append]
      cases hsd : splitDots k2 with
      | nil => exact absurd hsd (splitDots_ne_nil k2)
      | cons l ls =>
          rw [splitDots_cons_ne c (rest ++ '.' :: k2) (by simpa using h.1)
            rest (l :: ls) (by rw [ih h.2, hsd])]

theorem joinKey_nil (k : Str) : joinKey [] k = k := rfl

theorem joinKey_ne (pre k : Str) (h : pre ≠ []) : joinKey pre k = pre ++ '.' :: k := by
  unfold joinKey
  rw [if_neg (by simpa [List.isEmpty_iff] using h)]

theorem joinKey_assoc (pre k k2 : Str) (hk : k ≠ []) :
    joinKey pre (k ++ '.' :: k2) = joinKey (joinKey pre k) k2 := by
  by_cases hp : pre = []
  · subst hp
    rw [joinKey_nil, joinKey_nil, joinKey_ne k k2 hk]
  · rw [joinKey_ne pre _ hp, joinKey_ne pre k hp,
      joinKey_ne _ k2 (by simp), List.append_assoc]
    rfl

theorem joinKey_inj (pre a b : Str) (h : joinKey pre a = joinKey pre b) : a = b := by
  by_cases hp : pre = []
  · subst hp
    rwa [joinKey_nil, joinKey_nil] at h
  · rw [joinKey_ne pre a hp, joinKey_ne pre b hp] at h
    exact List.tail_eq_of_cons_eq (List.append_cancel_left h)

theorem goodVal_obj (v : JVal) (hg : goodVal v = true) (hl : isFlattenLeaf v = false) :
    v = .vObj (fieldsOf v) ∧ fieldsOf v ≠ [] ∧ nodupKeys (fieldsOf v) = true ∧
      goodFields (fieldsOf v) = true := by
  unfold isFlattenLeaf at hl
  rw [Bool.or_eq_false_iff] at hl
  obtain ⟨hte, hpo⟩ := hl
  rw [Bool.not_eq_false'] at hpo
  cases v with
  | vObj fields =>
      refine ⟨rfl, ?_, ?_, ?_⟩ <;>
        · show _
          unfold goodVal at hg
          rw [hte] at hg
          simp only [Bool.false_or, Bool.and_eq_true] at hg
          first
          | exact (by simpa [List.isEmpty_iff] using hg.1.1)
          | exact hg.1.2
          | exact hg.2
  | vStr s => exact Bool.noConfusion hpo
  | vNum n => exact Bool.noConfusion hpo
  | vBool b => exact Bool.noConfusion hpo
  | vNull => exact Bool.noConfusion hpo
  | vArr el => exact Bool.noConfusion hpo

theorem goodFields_cons (k : Str) (v : JVal) (rest : List (Str × JVal))
    (h : goodFields ((k, v) :: rest) = true) :
    k ≠ [] ∧ dotFree k = true ∧ goodVal v = true ∧ goodFields rest = true := by
  unfold goodFields at h
  simp only [Bool.and_eq_true] at h
  exact ⟨by simpa [List.isEmpty_iff] using h.1.1.1, h.1.1.2, h.1.2, h.2⟩

theorem nodupKeys_cons {α : Type} (k : Str) (v : α) (rest : List (Str × α))
    (h : nodupKeys ((k, v) :: rest) = true) :
    (∀ q ∈ rest, q.1 ≠ k) ∧ nodupKeys rest = true := by
  unfold nodupKeys at h
  simp only [Bool.and_eq_true, Bool.not_eq_true'] at h
  refine ⟨?_, h.2⟩
  intro q hq he
  have : rest.any (fun p => p.1 = k) = true :=
    List.any_eq_true.mpr ⟨q, hq, by simp [he]⟩
  rw [h.1] at this
  exact Bool.noConfusion this

theorem flattenSimpleF_cons_leaf (k : Str) (v : JVal) (rest : List (Str × JVal))
    (hl : isFlattenLeaf v = true) :
    flattenSimpleF ((k, v) :: rest) = (k, v) :: flattenSimpleF rest := by
  conv_lhs => unfold flattenSimpleF
  rw [if_pos hl]
  rfl

theorem flattenSimpleF_cons_obj (k : Str) (v : JVal) (rest : List (Str × JVal))
    (hl : isFlattenLeaf v = false) :
    flattenSimpleF ((k, v) :: rest) =
      (flattenSimpleV v).map (fun q => (k ++ '.' :: q.1, q.2)) ++
        flattenSimpleF rest := by
  conv_lhs => unfold flattenSimpleF
  rw [if_neg (by simp [hl])]

theorem flattenSimpleF_firstSeg (fields : List (Str × JVal))
    (hg : goodFields fields = true) :
    ∀ q ∈ flattenSimpleF fields, firstSeg q.1 ∈ fields.map Prod.fst := by
  induction fields with
  | nil => intro q hq; exact absurd hq (by simp [flattenSimpleF])
  | cons p rest ih =>
      obtain ⟨k, v⟩ := p
      obtain ⟨hkne, hkdf, hgv, hgr⟩ := goodFields_cons k v rest hg
      intro q hq
      by_cases hl : isFlattenLeaf v
      · rw [flattenSimpleF_cons_leaf k v rest hl] at hq
        rcases List.mem_cons.mp hq with he | hm
        · subst he
          rw [show ((k, v) : Str × JVal).1 = k from rfl, firstSeg_dotFree k hkdf]
          simp
        · exact List.mem_cons_of_mem _ (ih hgr q hm)
      · rw [flattenSimpleF_cons_obj k v rest (Bool.eq_false_iff.mpr hl)] at hq
        rcases List.mem_append.mp hq with hm | hm
        · obtain ⟨g, _, hge⟩ := List.mem_map.mp hm
          rw [← hge, show ((k ++ '.' :: g.1, g.2) : Str × JVal).1 =
            k ++ '.' :: g.1 from rfl, firstSeg_join k g.1 hkdf]
          simp
        · exact List.mem_cons_of_mem _ (ih hgr q hm)

mutual

theorem flattenSimpleV_ne_nil : ∀ (v : JVal), goodVal v = true →
    isFlattenLeaf v = false → flattenSimpleV v ≠ []
  | .vObj fields => fun hg hl => by
      obtain ⟨_, hne, _, hgf⟩ := goodVal_obj (.vObj fields) hg hl
      show flattenSimpleF fields ≠ []
      exact flattenSimpleF_ne_nil fields hgf hne
  | .vStr s => fun _ hl => Bool.noConfusion hl
  | .vNum n => fun _ hl => Bool.noConfusion hl
  | .vBool b => fun _ hl => Bool.noConfusion hl
  | .vNull => fun _ hl => Bool.noConfusion hl
  | .vArr el => fun _ hl => Bool.noConfusion hl

theorem flattenSimpleF_ne_nil : ∀ (fields : List (Str × JVal)),
    goodFields fields = true → fields ≠ [] → flattenSimpleF fields ≠ []
  | [] => fun _ hne => absurd rfl hne
  | (k, v) :: rest => fun hg _ => by
      obtain ⟨_, _, hgv, _⟩ := goodFields_cons k v rest hg
      by_cases hl : isFlattenLeaf v
      · rw [flattenSimpleF_cons_leaf k v rest hl]
        simp
      · have hlf := Bool.eq_false_iff.mpr hl
        rw [flattenSimpleF_cons_obj k v rest hlf]
        have := flattenSimpleV_ne_nil v hgv hlf
        intro hcon
        rw [List.append_eq_nil] at hcon
        exact this (List.map_eq_nil_iff.mp hcon.1)

end

mutual

theorem flattenVal_eq_simple : ∀ (v : JVal) (pre : Str), goodVal v = true →
    isFlattenLeaf v = false →
    flattenVal v pre = (flattenSimpleV v).map (fun q => (joinKey pre q.1, q.2))
  | .vObj fields, pre => fun hg hl => by
      obtain ⟨_, _, hnd, hgf⟩ := goodVal_obj (.vObj fields) hg hl
      show flattenFields fields pre [] =
        (flattenSimpleF fields).map (fun q => (joinKey pre q.1, q.2))
      rw [flattenFields_eq_simple fields pre [] hnd hgf (fun q hq => rfl)]
      rfl
  | .vStr s, _ => fun _ hl => Bool.noConfusion hl
  | .vNum n, _ => fun _ hl => Bool.noConfusion hl
  | .vBool b, _ => fun _ hl => Bool.noConfusion hl
  | .vNull, _ => fun _ hl => Bool.noConfusion hl
  | .vArr el, _ => fun _ hl => Bool.noConfusion hl

theorem flattenFields_eq_simple : ∀ (fields : List (Str × JVal)) (pre : Str)
    (acc : FlatMap), nodupKeys fields = true → goodFields fields = true →
    (∀ q ∈ (flattenSimpleF fields).map (fun q => (joinKey pre q.1, q.2)),
      lookupL acc q.1 = none) →
    flattenFields fields pre acc =
      acc ++ (flattenSimpleF fields).map (fun q => (joinKey pre q.1, q.2))
  | [], pre, acc => fun _ _ _ => by
      show acc = acc ++ ([] : FlatMap).map _
      simp
  | (k, v) :: rest, pre, acc => fun hnd hg hfresh => by
      obtain ⟨hkne, hkdf, hgv, hgr⟩ := goodFields_cons k v rest hg
      obtain ⟨hndr1, hndr⟩ := nodupKeys_cons k v rest hnd
      show (if isFlattenLeaf v then
          flattenFields rest pre (setKey acc (joinKey pre k) v)
        else
          flattenFields rest pre (objAssign acc (flattenVal v (joinKey pre k)))) = _
      by_cases hl : isFlattenLeaf v
      · rw [if_pos hl]
        have hsf := flattenSimpleF_cons_leaf k v rest hl
        have hfk : lookupL acc (joinKey pre k) = none := by
          have := hfresh (joinKey pre k, v) (by rw [hsf]; simp)
          exact this
        rw [setKey_of_lookup_none acc (joinKey pre k) v hfk]
        rw [flattenFields_eq_simple rest pre _ hndr hgr ?_]
        · rw [hsf]
          simp
        · intro q hq
          obtain ⟨q2, hq2, hqe⟩ := List.mem_map.mp hq
          have hq0 : lookupL acc q.1 = none := by
            apply hfresh q
            rw [hsf, List.map_cons]
            exact List.mem_cons_of_mem _ hq
          rw [lookupL_append_right acc _ q.1 hq0, lookupL_cons, if_neg ?_]
          · rfl
          · intro he
            rw [← hqe] at he
            have hke : k = q2.1 := joinKey_inj pre k q2.1 he
            have hfs : firstSeg q2.1 ∈ rest.map Prod.fst :=
              flattenSimpleF_firstSeg rest hgr q2 hq2
            rw [← hke, firstSeg_dotFree k hkdf] at hfs
            obtain ⟨p, hp, hpe⟩ := List.mem_map.mp hfs
            exact hndr1 p hp hpe
      · rw [if_neg hl]
        have hlf : isFlattenLeaf v = false := Bool.eq_false_iff.mpr hl
        have hveq := flattenVal_eq_simple v (joinKey pre k) hgv hlf
        have hsf := flattenSimpleF_cons_obj k v rest hlf
        have hcomp : (flattenSimpleV v).map
            (fun q => (joinKey (joinKey pre k) q.1, q.2)) =
            ((flattenSimpleV v).map (fun q => (k ++ '.' :: q.1, q.2))).map
              (fun q => (joinKey pre q.1, q.2)) := by
          rw [List.map_map]
          apply List.map_congr_left
          intro q hq
          show (joinKey (joinKey pre k) q.1, q.2) =
            (joinKey pre (k ++ '.' :: q.1), q.2)
          rw [joinKey_assoc pre k q.1 hkne]
        have hnodup := flattenVal_keys_nodup v (joinKey pre k)
        rw [hveq] at hnodup
        have hdisj : ∀ q ∈ (flattenSimpleV v).map
            (fun q => (joinKey (joinKey pre k) q.1, q.2)),
            lookupL acc q.1 = none := by
          intro q hq
          rw [hcomp] at hq
          exact hfresh q (by
            rw [hsf, List.map_append]
            exact List.mem_append_left _ hq)
        rw [hveq, objAssign_of_disjoint acc _ hdisj hnodup]
        rw [flattenFields_eq_simple rest pre _ hndr hgr ?_]
        · rw [hsf, List.map_append, ← hcomp, List.append_assoc]
        · intro q hq
          obtain ⟨q2, hq2, hqe⟩ := List.mem_map.mp hq
          have hq0 : lookupL acc q.1 = none :=
            hfresh q (by
              rw [hsf, List.map_append]
              exact List.mem_append_right _ hq)
          rw [lookupL_append_right acc _ q.1 hq0]
          apply lookupL_eq_none_of_notMem
          intro hmem
          rw [hcomp] at hmem
          rw [← hcomp, List.map_map] at hmem
          obtain ⟨g, hgm, hge⟩ := List.mem_map.mp hmem
          rw [← hqe] at hge
          show False
          have hge2 : joinKey pre (k ++ '.' :: g.1) = joinKey pre q2.1 := by
            rw [joinKey_assoc pre k g.1 hkne]
            exact hge
          have hke : k ++ '.' :: g.1 = q2.1 := joinKey_inj pre _ _ hge2
          have hfs : firstSeg q2.1 ∈ rest.map Prod.fst :=
            flattenSimpleF_firstSeg rest hgr q2 hq2
          rw [← hke, firstSeg_join k g.1 hkdf] at hfs
          obtain ⟨p, hp, hpe⟩ := List.mem_map.mp hfs
          exact hndr1 p hp hpe

end

theorem flattenObject_eq_simple (fields : List (Str × JVal))
    (hnd : nodupKeys fields = true) (hg : goodFields fields = true) :
    flattenObject (.vObj fields) = flattenSimpleF fields := by
  show flattenFields fields [] [] = flattenSimpleF fields
  rw [flattenFields_eq_simple fields [] [] hnd hg (fun q hq => rfl)]
  show (flattenSimpleF fields).map (fun q => (joinKey [] q.1, q.2)) = _
  have : ∀ l : FlatMap, l.map (fun q => (joinKey [] q.1, q.2)) = l := by
    intro l
    induction l with
    | nil => rfl
    | cons q rest ih =>
        rw [List.map_cons, ih, joinKey_nil]
  exact this _

theorem foldInsert_cons (m : FlatMap) (a : Str) (b : JVal) (E : FlatMap) :
    foldInsert m ((a, b) :: E) = foldInsert (insertPath m (splitDots a) b) E := rfl

theorem foldInsert_append (m : FlatMap) (A B : FlatMap) :
    foldInsert m (A ++ B) = foldInsert (foldInsert m A) B := by
  unfold foldInsert
  rw [List.foldl_append]

theorem insertPath_cons_none (m : FlatMap) (k l0 : Str) (ls : List Str) (v : JVal)
    (h : lookupL m k = none) :
    insertPath m (k :: l0 :: ls) v =
      setKey m k (.vObj (insertPath [] (l0 :: ls) v)) := by
  conv_lhs => unfold insertPath
  rw [h]

theorem insertPath_cons_obj (m : FlatMap) (k l0 : Str) (ls : List Str) (v : JVal)
    (sub : FlatMap) (h : lookupL m k = some (.vObj sub)) :
    insertPath m (k :: l0 :: ls) v =
      setKey m k (.vObj (insertPath sub (l0 :: ls) v)) := by
  conv_lhs => unfold insertPath
  rw [h]

theorem lookupL_append_singleton (acc : FlatMap) (k : Str) (w : JVal)
    (h : lookupL acc k = none) : lookupL (acc ++ [(k, w)]) k = some w := by
  rw [lookupL_append_right acc _ k h, lookupL_cons, if_pos rfl]

theorem setKey_update_end (acc : FlatMap) (k : Str) (w w2 : JVal)
    (h : lookupL acc k = none) :
    setKey (acc ++ [(k, w)]) k w2 = acc ++ [(k, w2)] := by
  unfold setKey
  rw [if_pos ?_]
  · rw [List.map_append]
    rw [List.map_congr_left (fun p hp => if_neg (fun he : p.1 = k => by
      have := lookupL_isSome_of_mem acc k (he ▸ List.mem_map_of_mem Prod.fst hp)
      rw [h] at this
      exact Bool.noConfusion this))]
    rw [show ([(k, w)] : FlatMap).map
        (fun p => if p.1 = k then (k, w2) else p) = [(k, w2)] from by simp]
    simp
  · apply List.any_eq_true.mpr
    exact ⟨(k, w), by simp, by simp⟩

theorem foldInsert_group (k : Str) (E : FlatMap) (acc : FlatMap) (m0 : FlatMap)
    (hkdf : dotFree k = true) (hfk : lookupL acc k = none) :
    foldInsert (acc ++ [(k, .vObj m0)])
        (E.map (fun q => (k ++ '.' :: q.1, q.2))) =
      acc ++ [(k, .vObj (foldInsert m0 E))] := by
  induction E generalizing m0 with
  | nil => rfl
  | cons e E2 ih =>
      obtain ⟨e1, e2⟩ := e
      show foldInsert (acc ++ [(k, .vObj m0)])
          ((k ++ '.' :: e1, e2) :: E2.map (fun q => (k ++ '.' :: q.1, q.2))) =
        acc ++ [(k, .vObj (foldInsert m0 ((e1, e2) :: E2)))]
      rw [foldInsert_cons]
      rw [splitDots_join k e1 hkdf]
      cases hsp2 : splitDots e1 with
      | nil => exact absurd hsp2 (splitDots_ne_nil e1)
      | cons l0 ls =>
          have hlk : lookupL (acc ++ [(k, .vObj m0)]) k = some (.vObj m0) :=
            lookupL_append_singleton acc k (.vObj m0) hfk
          rw [insertPath_cons_obj _ k l0 ls e2 m0 hlk]
          rw [setKey_update_end acc k _ _ hfk]
          rw [ih (insertPath m0 (l0 :: ls) e2)]
          conv_rhs => rw [foldInsert_cons, hsp2]

mutual

theorem unflat_V : ∀ (v : JVal), goodVal v = true → isFlattenLeaf v = false →
    foldInsert [] (flattenSimpleV v) = fieldsOf v
  | .vObj fields => fun hg hl => by
      obtain ⟨_, _, hnds, hgfs⟩ := goodVal_obj (.vObj fields) hg hl
      show foldInsert [] (flattenSimpleF fields) = fields
      rw [unflat_F fields [] hnds hgfs (fun k2 _ => rfl)]
      rfl
  | .vStr s => fun _ hl => Bool.noConfusion hl
  | .vNum n => fun _ hl => Bool.noConfusion hl
  | .vBool b => fun _ hl => Bool.noConfusion hl
  | .vNull => fun _ hl => Bool.noConfusion hl
  | .vArr el => fun _ hl => Bool.noConfusion hl

theorem unflat_F : ∀ (fields : List (Str × JVal)) (acc : FlatMap),
    nodupKeys fields = true → goodFields fields = true →
    (∀ k2 ∈ fields.map Prod.fst, lookupL acc k2 = none) →
    foldInsert acc (flattenSimpleF fields) = acc ++ fields
  | [], acc => fun _ _ _ => by
      show acc = acc ++ []
      simp
  | (k, v) :: rest, acc => fun hnd hg hfresh => by
      obtain ⟨hkne, hkdf, hgv, hgr⟩ := goodFields_cons k v rest hg
      obtain ⟨hndr1, hndr⟩ := nodupKeys_cons k v rest hnd
      have hfk : lookupL acc k = none := hfresh k (by simp)
      have hfresh2 : ∀ k2 ∈ rest.map Prod.fst,
          lookupL (acc ++ [(k, v)]) k2 = none := by
        intro k2 hk2
        have h0 : lookupL acc k2 = none := hfresh k2 (by
          rw [List.map_cons]
          exact List.mem_cons_of_mem _ hk2)
        rw [lookupL_append_right acc _ k2 h0, lookupL_cons, if_neg ?_]
        · rfl
        · intro he
          obtain ⟨p, hp, hpe⟩ := List.mem_map.mp hk2
          exact hndr1 p hp (by rw [hpe, ← he])
      by_cases hl : isFlattenLeaf v
      · rw [flattenSimpleF_cons_leaf k v rest hl, foldInsert_cons]
        rw [splitDots_dotFree k hkne hkdf]
        rw [show insertPath acc [k] v = setKey acc k v from rfl]
        rw [setKey_of_lookup_none acc k v hfk]
        rw [unflat_F rest (acc ++ [(k, v)]) hndr hgr hfresh2]
        simp
      · have hlf := Bool.eq_false_iff.mpr hl
        obtain ⟨hv0, _, _, _⟩ := goodVal_obj v hgv hlf
        have hrec := unflat_V v hgv hlf
        have hEne : flattenSimpleV v ≠ [] := flattenSimpleV_ne_nil v hgv hlf
        rw [flattenSimpleF_cons_obj k v rest hlf, foldInsert_append]
        cases hE : flattenSimpleV v with
        | nil => exact absurd hE hEne
        | cons e0 E2 =>
            obtain ⟨e1, e2⟩ := e0
            rw [show ((e1, e2) :: E2).map (fun q => (k ++ '.' :: q.1, q.2)) =
              (k ++ '.' :: e1, e2) ::
                E2.map (fun q => (k ++ '.' :: q.1, q.2)) from rfl]
            rw [foldInsert_cons]
            rw [splitDots_join k e1 hkdf]
            cases hsp2 : splitDots e1 with
            | nil => exact absurd hsp2 (splitDots_ne_nil e1)
            | cons l0 ls =>
                rw [insertPath_cons_none acc k l0 ls e2 hfk]
                rw [setKey_of_lookup_none acc k _ hfk]
                rw [foldInsert_group k E2 acc _ hkdf hfk]
                rw [hE] at hrec
                rw [foldInsert_cons, hsp2] at hrec
                rw [hrec, ← hv0]
                rw [unflat_F rest (acc ++ [(k, v)]) hndr hgr hfresh2]
                simp

end

/-- C2 is false as stated: the tree `{"a": \x7b\x7d}` has no
dot-containing key anywhere (and no dot-containing-keyed object leaf),
yet flattening produces the empty map - the inner loop of flattenObject
never runs on an empty object - so unflattening returns the empty object
instead of the original tree. -/
theorem claim_C2_counterexample :
    dotFree ("a".toList) = true ∧
    unflattenObject (flattenObject (.vObj [("a".toList, .vObj [])])) ≠
      .vObj [("a".toList, .vObj [])] := by
  refine ⟨by decide, by decide⟩

/-- C2 (amended): unflattenObject(flattenObject(T)) = T for every object
tree T in which every recursed object (the root aside, every non-leaf,
i.e. every plain object that is not TranslationEntry-shaped) is nonempty
and every field list carries unique, nonempty, dot-free keys; leaves
(strings, numbers, booleans, null, arrays and TranslationEntry-shaped
objects) are arbitrary.  The nonemptiness condition is what the original
claim misses. -/
theorem claim_C2_flatten_unflatten_roundtrip (fields : List (Str × JVal))
    (hnd : nodupKeys fields = true) (hg : goodFields fields = true) :
    unflattenObject (flattenObject (.vObj fields)) = .vObj fields := by
  rw [flattenObject_eq_simple fields hnd hg]
  cases hf : fields with
  | nil => rfl
  | cons p rest =>
      have hne : flattenSimpleF fields ≠ [] :=
        flattenSimpleF_ne_nil fields hg (by rw [hf]; simp)
      rw [← hf]
      unfold unflattenObject
      rw [if_neg (by simpa [List.isEmpty_iff] using hne)]
      rw [unflattenList_eq_foldInsert]
      rw [unflat_F fields [] hnd hg (fun k2 _ => rfl)]
      rfl

theorem claim_C2_flatten_unflatten_roundtrip_witness :
    nodupKeys [(("a".toList : Str), JVal.vObj [("b".toList, .vStr ("x".toList))]),
      ("c".toList, .vStr ("y".toList))] = true ∧
    goodFields [(("a".toList : Str), JVal.vObj [("b".toList, .vStr ("x".toList))]),
      ("c".toList, .vStr ("y".toList))] = true ∧
    unflattenObject (flattenObject (.vObj
      [(("a".toList : Str), JVal.vObj [("b".toList, .vStr ("x".toList))]),
        ("c".toList, .vStr ("y".toList))])) =
      .vObj [(("a".toList : Str), JVal.vObj [("b".toList, .vStr ("x".toList))]),
        ("c".toList, .vStr ("y".toList))] :=
  ⟨by decide, by decide,
    claim_C2_flatten_unflatten_roundtrip
      [(("a".toList : Str), JVal.vObj [("b".toList, .vStr ("x".toList))]),
        ("c".toList, .vStr ("y".toList))] (by decide) (by decide)⟩

theorem matchPlaceholder_not_brace (c : Char) (rest : Str) (hc : ¬ c = '{') :
    matchPlaceholder (c :: rest) = none := by
  simp only [matchPlaceholder]
  rw [if_neg hc]

theorem matchPlaceholder_head (s m r : Str) (h : matchPlaceholder s = some (m, r)) :
    ∃ t, s = '{' :: t := by
  cases s with
  | nil => exact Option.noConfusion h
  | cons c rest =>
      by_cases hc : c = '{'
      · exact ⟨rest, by rw [hc]⟩
      · rw [matchPlaceholder_not_brace c rest hc] at h
        exact Option.noConfusion h

theorem findPlaceholders_append_nb (w t : Str)
    (hw : w.all (fun c => ¬ c = '{') = true) :
    findPlaceholders (w ++ t) = findPlaceholders t := by
  induction w with
  | nil => rfl
  | cons c w2 ih =>
      simp only [List.all_cons, Bool.and_eq_true] at hw
      rw [List.cons_append, findPlaceholders_cons]
      rw [matchPlaceholder_not_brace c _ (by simpa using hw.1)]
      show findPlaceholders (w2 ++ t) = findPlaceholders t
      exact ih hw.2

theorem findPlaceholders_all_nb (w : Str)
    (hw : w.all (fun c => ¬ c = '{') = true) : findPlaceholders w = [] := by
  have h := findPlaceholders_append_nb w [] hw
  rw [List.append_nil] at h
  rw [h, findPlaceholders_nil]

theorem findPlaceholders_single (p w1 : Str)
    (hp : matchPlaceholder (p ++ w1) = some (p, w1))
    (h1 : w1.all (fun c => ¬ c = '{') = true) :
    findPlaceholders (p ++ w1) = [p] := by
  have hne : p ≠ [] := (matchPlaceholder_spec (p ++ w1) p w1 hp).2
  cases p with
  | nil => exact absurd rfl hne
  | cons c p2 =>
      rw [List.cons_append, findPlaceholders_cons]
      rw [show matchPlaceholder (c :: (p2 ++ w1)) = some (c :: p2, w1) from hp]
      show (c :: p2) :: findPlaceholders w1 = [c :: p2]
      rw [findPlaceholders_all_nb w1 h1]

theorem replaceFirstStr_append_nb (w t p2 repl : Str)
    (hw : w.all (fun c => ¬ c = '{') = true) :
    replaceFirstStr (w ++ t) ('{' :: p2) repl =
      w ++ replaceFirstStr t ('{' :: p2) repl := by
  induction w with
  | nil => rfl
  | cons c w2 ih =>
      simp only [List.all_cons, Bool.and_eq_true] at hw
      rw [List.cons_append]
      simp only [replaceFirstStr]
      rw [if_neg ?_]
      · rw [ih hw.2]
        rfl
      · intro hpre
        simp only [List.isPrefixOf, Bool.and_eq_true, beq_iff_eq] at hpre
        exact (by simpa using hw.1 : ¬ c = '{') hpre.1.symm

theorem replaceFirstStr_here (p w1 repl : Str) (hne : p ≠ []) :
    replaceFirstStr (p ++ w1) p repl = repl ++ w1 := by
  cases p with
  | nil => exact absurd rfl hne
  | cons c p2 =>
      rw [List.cons_append]
      simp only [replaceFirstStr]
      rw [if_pos ?_]
      · rw [show c :: (p2 ++ w1) = (c :: p2) ++ w1 from rfl, List.drop_left]
      · rw [List.isPrefixOf_iff_prefix]
        rw [show c :: (p2 ++ w1) = (c :: p2) ++ w1 from rfl]
        exact List.prefix_append _ _

theorem extractPlaceholders_single (w0 p w1 : Str)
    (h0 : w0.all (fun c => ¬ c = '{') = true)
    (hp : matchPlaceholder (p ++ w1) = some (p, w1))
    (h1 : w1.all (fun c => ¬ c = '{') = true) :
    extractPlaceholders (w0 ++ (p ++ w1)) =
      (w0 ++ (' ' :: (markerStr 0 ++ (' ' :: w1))), [(markerStr 0, p)]) := by
  have hne : p ≠ [] := (matchPlaceholder_spec (p ++ w1) p w1 hp).2
  have hfp : findPlaceholders (w0 ++ (p ++ w1)) = [p] := by
    rw [findPlaceholders_append_nb w0 (p ++ w1) h0]
    exact findPlaceholders_single p w1 hp h1
  have hstep : extractPlaceholders (w0 ++ (p ++ w1)) =
      if (findPlaceholders (w0 ++ (p ++ w1))).isEmpty then (w0 ++ (p ++ w1), [])
      else (findPlaceholders (w0 ++ (p ++ w1))).enum.foldl
        (fun st q => (replaceFirstStr st.1 q.2 (' ' :: (markerStr q.1 ++ [' '])),
          st.2 ++ [(markerStr q.1, q.2)])) (w0 ++ (p ++ w1), []) := rfl
  rw [hstep, hfp]
  rw [if_neg (by simp)]
  show (replaceFirstStr (w0 ++ (p ++ w1)) p (' ' :: (markerStr 0 ++ [' '])),
      ([] : List (Str × Str)) ++ [(markerStr 0, p)]) = _
  rw [List.nil_append]
  obtain ⟨t, ht⟩ := matchPlaceholder_head (p ++ w1) p w1 hp
  cases p with
  | nil => exact absurd rfl hne
  | cons c p2 =>
      have hc : c = '{' := by
        rw [List.cons_append] at ht
        injection ht with h1' h2'
      subst hc
      rw [replaceFirstStr_append_nb w0 (('{' :: p2) ++ w1) p2 _ h0]
      rw [replaceFirstStr_here ('{' :: p2) w1 _ (by simp)]
      rw [show (' ' :: (markerStr 0 ++ [' '])) ++ w1 =
        ' ' :: (markerStr 0 ++ (' ' :: w1)) from by simp]

theorem wsStripEnd_cons_nws (c : Char) (u : Str) (hc : isJsSpace c = false) :
    wsStripEnd (c :: u) = c :: wsStripEnd u := by
  conv_lhs => unfold wsStripEnd
  rw [hc]
  simp

theorem wsStripEnd_cons_ws_nil (c : Char) (u : Str) (hc : isJsSpace c = true)
    (hu : wsStripEnd u = []) : wsStripEnd (c :: u) = [] := by
  conv_lhs => unfold wsStripEnd
  rw [hc, hu]
  simp

theorem wsStripEnd_cons_ws_cons (c : Char) (u : Str) (hc : isJsSpace c = true)
    (d : Char) (r : Str) (hu : wsStripEnd u = d :: r) :
    wsStripEnd (c :: u) = c :: d :: r := by
  conv_lhs => unfold wsStripEnd
  rw [hc, hu]
  simp

theorem wsStripEnd_all_ws (u : Str) (hu : u.all isJsSpace = true) :
    wsStripEnd u = [] := by
  induction u with
  | nil => rfl
  | cons c u2 ih =>
      simp only [List.all_cons, Bool.and_eq_true] at hu
      exact wsStripEnd_cons_ws_nil c u2 hu.1 (ih hu.2)

theorem wsStripEnd_not_all_ws (u : Str) (hu : u.all isJsSpace = false) :
    wsStripEnd u ≠ [] := by
  induction u with
  | nil => simp at hu
  | cons c u2 ih =>
      by_cases hc : isJsSpace c
      · simp only [List.all_cons, hc, Bool.true_and] at hu
        cases he : wsStripEnd u2 with
        | nil => exact absurd he (ih hu)
        | cons d r =>
            rw [wsStripEnd_cons_ws_cons c u2 hc d r he]
            simp
      · rw [wsStripEnd_cons_nws c u2 (Bool.eq_false_iff.mpr hc)]
        simp

theorem wsStripEnd_eq_nil_all_ws (u : Str) (hu : wsStripEnd u = []) :
    u.all isJsSpace = true := by
  by_cases h : u.all isJsSpace
  · exact h
  · exact absurd hu (wsStripEnd_not_all_ws u (Bool.eq_false_iff.mpr h))

theorem wsStripEnd_decomp (u : Str) :
    ∃ sp, u = wsStripEnd u ++ sp ∧ sp.all isJsSpace = true := by
  induction u with
  | nil => exact ⟨[], rfl, rfl⟩
  | cons c u2 ih =>
      obtain ⟨sp, hsp, hall⟩ := ih
      by_cases hc : isJsSpace c
      · cases he : wsStripEnd u2 with
        | nil =>
            refine ⟨c :: u2, ?_, ?_⟩
            · rw [wsStripEnd_cons_ws_nil c u2 hc he]
              rfl
            · simp only [List.all_cons, hc, Bool.true_and]
              exact wsStripEnd_eq_nil_all_ws u2 he
        | cons d r =>
            refine ⟨sp, ?_, hall⟩
            rw [wsStripEnd_cons_ws_cons c u2 hc d r he]
            rw [List.cons_append, ← he, ← hsp]
      · refine ⟨sp, ?_, hall⟩
        rw [wsStripEnd_cons_nws c u2 (Bool.eq_false_iff.mpr hc)]
        rw [List.cons_append, ← hsp]

theorem all_of_dropWhile {p q : Char → Bool} (u : Str) (hu : u.all q = true) :
    (u.dropWhile p).all q = true := by
  apply List.all_eq_true.mpr
  intro c hc
  exact List.all_eq_true.mp hu c ((List.dropWhile_sublist p).subset hc)

theorem dropWhile_not_all (p : Char → Bool) (u : Str) (hu : u.all p = false) :
    ∃ d u2, u.dropWhile p = d :: u2 ∧ p d = false ∧ d ∈ u := by
  induction u with
  | nil => simp at hu
  | cons c u2 ih =>
      by_cases hc : p c
      · simp only [List.all_cons, hc, Bool.true_and] at hu
        obtain ⟨d, u3, h1, h2, h3⟩ := ih hu
        refine ⟨d, u3, ?_, h2, List.mem_cons_of_mem _ h3⟩
        rw [List.dropWhile_cons, if_pos hc]
        exact h1
      · refine ⟨c, u2, ?_, Bool.eq_false_iff.mpr hc, List.mem_cons_self _ _⟩
        rw [List.dropWhile_cons, if_neg hc]

theorem dropWhile_append_of_ne_nil (p : Char → Bool) (u t : Str)
    (hu : u.dropWhile p ≠ []) :
    (u ++ t).dropWhile p = u.dropWhile p ++ t := by
  induction u with
  | nil => exact absurd rfl hu
  | cons c u2 ih =>
      rw [List.cons_append, List.dropWhile_cons, List.dropWhile_cons]
      by_cases hc : p c
      · rw [if_pos hc, if_pos hc]
        rw [List.dropWhile_cons, if_pos hc] at hu
        exact ih hu
      · rw [if_neg hc, if_neg hc]
        rfl

theorem dropWhile_append_all (p : Char → Bool) (u t : Str)
    (hu : u.all p = true) : (u ++ t).dropWhile p = t.dropWhile p := by
  induction u with
  | nil => rfl
  | cons c u2 ih =>
      simp only [List.all_cons, Bool.and_eq_true] at hu
      rw [List.cons_append, List.dropWhile_cons, if_pos hu.1]
      exact ih hu.2

theorem matchWsVarWs_expand (var s : Str) :
    matchWsVarWs var s =
      if ciIsPrefix var (s.dropWhile isJsSpace) then
        some (s.takeWhile isJsSpace ++ (s.dropWhile isJsSpace).take var.length ++
            ((s.dropWhile isJsSpace).drop var.length).takeWhile isJsSpace,
          ((s.dropWhile isJsSpace).drop var.length).dropWhile isJsSpace)
      else none := rfl

theorem ciEqChar_refl (a : Char) : ciEqChar a a = true := by
  unfold ciEqChar
  simp

theorem ciIsPrefix_refl_append (v t : Str) : ciIsPrefix v (v ++ t) = true := by
  induction v with
  | nil => rfl
  | cons a v2 ih =>
      rw [List.cons_append]
      simp only [ciIsPrefix, Bool.and_eq_true]
      exact ⟨ciEqChar_refl a, ih⟩

theorem matchWsVarWs_none_of_head (vr : Str) (u : Str)
    (h : ∀ d, (u.dropWhile isJsSpace).head? = some d → ¬ d.toLower = 'x') :
    matchWsVarWs ('X' :: vr) u = none := by
  rw [matchWsVarWs_expand]
  rw [if_neg ?_]
  intro hpre
  cases hs : u.dropWhile isJsSpace with
  | nil =>
      rw [hs] at hpre
      simp [ciIsPrefix] at hpre
  | cons d ds =>
      rw [hs] at hpre
      simp only [ciIsPrefix, Bool.and_eq_true] at hpre
      have hd := h d (by rw [hs]; rfl)
      have : ('X' : Char).toLower = d.toLower := by
        simpa [ciEqChar] using hpre.1
      rw [show ('X' : Char).toLower = 'x' from by decide] at this
      exact hd this.symm

theorem matchWsVarWs_no_x (vr : Str) (u : Str)
    (hu : u.all (fun c => ¬ c.toLower = 'x') = true) :
    matchWsVarWs ('X' :: vr) u = none := by
  apply matchWsVarWs_none_of_head
  intro d hd
  cases hs : u.dropWhile isJsSpace with
  | nil => rw [hs] at hd; exact Option.noConfusion hd
  | cons d2 ds =>
      rw [hs] at hd
      injection hd with hde
      have hmem : d ∈ u := by
        rw [← hde]
        exact (List.dropWhile_sublist isJsSpace).subset (hs ▸ List.mem_cons_self d2 ds)
      simpa using List.all_eq_true.mp hu d hmem

theorem replaceAll_no_x (vr repl u : Str)
    (hu : u.all (fun c => ¬ c.toLower = 'x') = true) :
    replaceAllWsVarWs ('X' :: vr) repl u = u := by
  induction u with
  | nil => exact replaceAllWsVarWs_nil _ _
  | cons c rest ih =>
      rw [replaceAllWsVarWs_cons ('X' :: vr) repl (by simp) c rest]
      rw [matchWsVarWs_no_x vr (c :: rest) hu]
      show c :: replaceAllWsVarWs ('X' :: vr) repl rest = c :: rest
      simp only [List.all_cons, Bool.and_eq_true] at hu
      rw [ih hu.2]

theorem matchWsVarWs_at (vr w1 sp : Str) (hsp : sp.all isJsSpace = true) :
    ∃ cns, matchWsVarWs ('X' :: vr) (sp ++ (('X' :: vr) ++ (' ' :: w1))) =
      some (cns, w1.dropWhile isJsSpace) := by
  have hXnws : isJsSpace 'X' = false := by decide
  have hdw : (sp ++ (('X' :: vr) ++ (' ' :: w1))).dropWhile isJsSpace =
      ('X' :: vr) ++ (' ' :: w1) := by
    rw [dropWhile_append_all isJsSpace sp _ hsp]
    rw [List.cons_append, List.dropWhile_cons, if_neg (by rw [hXnws]; simp)]
  rw [matchWsVarWs_expand, hdw]
  rw [if_pos (ciIsPrefix_refl_append ('X' :: vr) (' ' :: w1))]
  rw [List.drop_left]
  rw [show (' ' :: w1).dropWhile isJsSpace = w1.dropWhile isJsSpace from by
    rw [List.dropWhile_cons, if_pos (by decide)]]
  exact ⟨_, rfl⟩

theorem replaceAll_marked (vr repl w1 : Str)
    (h1x : w1.all (fun c => ¬ c.toLower = 'x') = true) :
    ∀ w0 : Str, w0.all (fun c => ¬ c.toLower = 'x') = true →
    replaceAllWsVarWs ('X' :: vr) repl
        (w0 ++ (' ' :: (('X' :: vr) ++ (' ' :: w1)))) =
      wsStripEnd w0 ++ repl ++ w1.dropWhile isJsSpace := by
  intro w0
  induction w0 with
  | nil =>
      intro _
      obtain ⟨cns, hm⟩ := matchWsVarWs_at vr w1 [' '] (by decide)
      rw [List.nil_append]
      rw [replaceAllWsVarWs_cons ('X' :: vr) repl (by simp) ' ' _]
      rw [show (' ' :: (('X' :: vr) ++ (' ' :: w1))) =
        [' '] ++ (('X' :: vr) ++ (' ' :: w1)) from rfl, hm]
      show repl ++ replaceAllWsVarWs ('X' :: vr) repl (w1.dropWhile isJsSpace) =
        wsStripEnd [] ++ repl ++ w1.dropWhile isJsSpace
      rw [replaceAll_no_x vr repl _ (all_of_dropWhile w1 h1x)]
      rfl
  | cons c w2 ih =>
      intro hw
      simp only [List.all_cons, Bool.and_eq_true] at hw
      rw [List.cons_append]
      rw [replaceAllWsVarWs_cons ('X' :: vr) repl (by simp) c _]
      by_cases hcws : isJsSpace c
      · by_cases hall : w2.all isJsSpace
        · -- the whole remaining prefix is whitespace: the match fires here
          obtain ⟨cns, hm⟩ :=
            matchWsVarWs_at vr w1 (c :: (w2 ++ [' '])) (by
              simp only [List.all_cons, Bool.and_eq_true]
              refine ⟨hcws, ?_⟩
              rw [List.all_append]
              rw [hall]
              decide)
          rw [show c :: (w2 ++ (' ' :: (('X' :: vr) ++ (' ' :: w1)))) =
            (c :: (w2 ++ [' '])) ++ (('X' :: vr) ++ (' ' :: w1)) from by simp]
          rw [hm]
          show repl ++ replaceAllWsVarWs ('X' :: vr) repl (w1.dropWhile isJsSpace) =
            wsStripEnd (c :: w2) ++ repl ++ w1.dropWhile isJsSpace
          rw [replaceAll_no_x vr repl _ (all_of_dropWhile w1 h1x)]
          rw [wsStripEnd_cons_ws_nil c w2 hcws (wsStripEnd_all_ws w2 hall)]
          rfl
        · -- some non-whitespace character of w2 blocks the match here
          rw [matchWsVarWs_none_of_head vr _ ?_]
          · show c :: replaceAllWsVarWs ('X' :: vr) repl
                (w2 ++ (' ' :: (('X' :: vr) ++ (' ' :: w1)))) = _
            rw [ih hw.2]
            cases he : wsStripEnd w2 with
            | nil =>
                exact absurd he
                  (wsStripEnd_not_all_ws w2 (Bool.eq_false_iff.mpr hall))
            | cons d r =>
                rw [wsStripEnd_cons_ws_cons c w2 hcws d r he]
                rfl
          · intro d hd
            obtain ⟨d2, u2, hdw, hnws, hmem⟩ :=
              dropWhile_not_all isJsSpace w2 (Bool.eq_false_iff.mpr hall)
            rw [show (c :: (w2 ++ (' ' :: (('X' :: vr) ++ (' ' :: w1))))).dropWhile
                  isJsSpace =
                (d2 :: u2) ++ (' ' :: (('X' :: vr) ++ (' ' :: w1))) from by
              rw [List.dropWhile_cons, if_pos hcws]
              rw [dropWhile_append_of_ne_nil isJsSpace w2 _ (by rw [hdw]; simp)]
              rw [hdw]] at hd
            injection hd with hde
            rw [← hde]
            simpa using List.all_eq_true.mp hw.2 d2 hmem
      · rw [matchWsVarWs_none_of_head vr _ ?_]
        · show c :: replaceAllWsVarWs ('X' :: vr) repl
              (w2 ++ (' ' :: (('X' :: vr) ++ (' ' :: w1)))) = _
          rw [ih hw.2]
          rw [wsStripEnd_cons_nws c w2 (Bool.eq_false_iff.mpr hcws)]
          rfl
        · intro d hd
          rw [List.dropWhile_cons, if_neg hcws] at hd
          injection hd with hde
          rw [← hde]
          show ¬ c.toLower = 'x'
          simpa using hw.1

theorem stateAfter_cons (b : Bool) (c : Char) (xs : Str) :
    stateAfter b (c :: xs) = stateAfter (isJsSpace c) xs := rfl

theorem collapseWsAux_cons_ws_true (c : Char) (rest : Str)
    (hc : isJsSpace c = true) :
    collapseWsAux true (c :: rest) = collapseWsAux true rest := by
  show (if isJsSpace c then collapseWsAux true rest
    else c :: collapseWsAux false rest) = _
  rw [hc]
  simp

theorem collapseWsAux_cons_ws_false (c : Char) (rest : Str)
    (hc : isJsSpace c = true) :
    collapseWsAux false (c :: rest) = ' ' :: collapseWsAux true rest := by
  show (if isJsSpace c then ' ' :: collapseWsAux true rest
    else c :: collapseWsAux false rest) = _
  rw [hc]
  simp

theorem collapseWsAux_cons_nws (b : Bool) (c : Char) (rest : Str)
    (hc : isJsSpace c = false) :
    collapseWsAux b (c :: rest) = c :: collapseWsAux false rest := by
  cases b with
  | true =>
      show (if isJsSpace c then collapseWsAux true rest
        else c :: collapseWsAux false rest) = _
      rw [hc]
      simp
  | false =>
      show (if isJsSpace c then ' ' :: collapseWsAux true rest
        else c :: collapseWsAux false rest) = _
      rw [hc]
      simp

theorem collapseWsAux_append (xs : Str) : ∀ (b : Bool) (ys : Str),
    collapseWsAux b (xs ++ ys) =
      collapseWsAux b xs ++ collapseWsAux (stateAfter b xs) ys := by
  induction xs with
  | nil => intro b ys; rfl
  | cons c xs2 ih =>
      intro b ys
      rw [List.cons_append, stateAfter_cons]
      by_cases hc : isJsSpace c
      · rw [hc]
        cases b with
        | true =>
            rw [collapseWsAux_cons_ws_true c _ hc,
              collapseWsAux_cons_ws_true c xs2 hc, ih true ys]
        | false =>
            rw [collapseWsAux_cons_ws_false c _ hc,
              collapseWsAux_cons_ws_false c xs2 hc, ih true ys]
            rfl
      · have hcf := Bool.eq_false_iff.mpr hc
        rw [hcf]
        rw [collapseWsAux_cons_nws b c _ hcf,
          collapseWsAux_cons_nws b c xs2 hcf, ih false ys]
        rfl

theorem stateAfter_wsStripEnd (u : Str) :
    stateAfter false (wsStripEnd u) = false := by
  induction u with
  | nil => rfl
  | cons c u2 ih =>
      by_cases hc : isJsSpace c
      · cases he : wsStripEnd u2 with
        | nil =>
            rw [wsStripEnd_cons_ws_nil c u2 hc he]
            rfl
        | cons d r =>
            rw [wsStripEnd_cons_ws_cons c u2 hc d r he]
            rw [stateAfter_cons]
            have hne : stateAfter (isJsSpace c) (d :: r) =
                stateAfter false (d :: r) := by
              rw [stateAfter_cons, stateAfter_cons]
            rw [hne, ← he]
            exact ih
      · rw [wsStripEnd_cons_nws c u2 (Bool.eq_false_iff.mpr hc)]
        rw [stateAfter_cons, Bool.eq_false_iff.mpr hc]
        cases he : wsStripEnd u2 with
        | nil => rfl
        | cons d r =>
            have : stateAfter false (d :: r) = false := by rw [← he]; exact ih
            rw [stateAfter_cons] at this ⊢
            exact this

theorem collapseWsAux_ws_run_true (sp : Str) (hsp : sp.all isJsSpace = true)
    (ys : Str) : collapseWsAux true (sp ++ ys) = collapseWsAux true ys := by
  induction sp with
  | nil => rfl
  | cons c sp2 ih =>
      simp only [List.all_cons, Bool.and_eq_true] at hsp
      rw [List.cons_append, collapseWsAux_cons_ws_true c _ hsp.1]
      exact ih hsp.2

theorem collapseWsAux_ws_run_false (sp : Str) (hsp : sp.all isJsSpace = true)
    (hne : sp ≠ []) (ys : Str) :
    collapseWsAux false (sp ++ ys) = ' ' :: collapseWsAux true ys := by
  cases sp with
  | nil => exact absurd rfl hne
  | cons c sp2 =>
      simp only [List.all_cons, Bool.and_eq_true] at hsp
      rw [List.cons_append, collapseWsAux_cons_ws_false c _ hsp.1]
      rw [collapseWsAux_ws_run_true sp2 hsp.2 ys]

theorem collapseWsAux_true_dropWhile (u : Str) :
    collapseWsAux true (u.dropWhile isJsSpace) = collapseWsAux true u := by
  conv_rhs => rw [← List.takeWhile_append_dropWhile (p := isJsSpace) (l := u)]
  rw [collapseWsAux_ws_run_true (u.takeWhile isJsSpace) ?_ _]
  apply List.all_eq_true.mpr
  intro c hc
  exact List.mem_takeWhile_imp hc

theorem collapse_ws_tail (b : Bool) (w1 : Str) :
    collapseWsAux b (' ' :: w1.dropWhile isJsSpace) =
      collapseWsAux b (' ' :: w1) := by
  have hsw : isJsSpace ' ' = true := by decide
  cases b with
  | true =>
      rw [collapseWsAux_cons_ws_true ' ' _ hsw, collapseWsAux_cons_ws_true ' ' _ hsw]
      exact collapseWsAux_true_dropWhile w1
  | false =>
      rw [collapseWsAux_cons_ws_false ' ' _ hsw,
        collapseWsAux_cons_ws_false ' ' _ hsw]
      rw [collapseWsAux_true_dropWhile w1]

theorem collapse_marked (w0 p w1 : Str) :
    collapseWs (wsStripEnd w0 ++ ((' ' :: (p ++ [' '])) ++ w1.dropWhile isJsSpace)) =
      collapseWs (w0 ++ (' ' :: (p ++ (' ' :: w1)))) := by
  obtain ⟨sp, hw0, hsp⟩ := wsStripEnd_decomp w0
  unfold collapseWs
  conv_rhs => rw [hw0]
  rw [List.append_assoc]
  rw [collapseWsAux_append (wsStripEnd w0) false _,
    collapseWsAux_append (wsStripEnd w0) false _]
  rw [stateAfter_wsStripEnd w0]
  rw [show (' ' :: (p ++ [' '])) ++ w1.dropWhile isJsSpace =
    ' ' :: (p ++ (' ' :: w1.dropWhile isJsSpace)) from by simp]
  rw [show sp ++ (' ' :: (p ++ (' ' :: w1))) =
    (sp ++ [' ']) ++ (p ++ (' ' :: w1)) from by simp]
  rw [collapseWsAux_ws_run_false (sp ++ [' ']) ?_ (by simp) _]
  · rw [show (' ' : Char) :: (p ++ (' ' :: w1.dropWhile isJsSpace)) =
      [' '] ++ (p ++ (' ' :: w1.dropWhile isJsSpace)) from rfl]
    rw [collapseWsAux_ws_run_false [' '] (by decide) (by simp) _]
    rw [collapseWsAux_append p true _, collapseWsAux_append p true _]
    rw [collapse_ws_tail (stateAfter true p) w1]
  · rw [List.all_append, hsp]
    decide

theorem testWsVarWs_append_of (v s t : Str) (h : testWsVarWs v t = true) :
    testWsVarWs v (s ++ t) = true := by
  induction s with
  | nil => exact h
  | cons c s2 ih =>
      rw [List.cons_append]
      show ((matchWsVarWs v (c :: (s2 ++ t))).isSome || testWsVarWs v (s2 ++ t)) = true
      rw [ih, Bool.or_true]

theorem testWsVarWs_head (v : Str) (c : Char) (rest : Str)
    (h : (matchWsVarWs v (c :: rest)).isSome = true) :
    testWsVarWs v (c :: rest) = true := by
  show ((matchWsVarWs v (c :: rest)).isSome || testWsVarWs v rest) = true
  rw [h, Bool.true_or]

theorem restore_single (w0 p w1 : Str)
    (h0x : w0.all (fun c => ¬ c.toLower = 'x') = true)
    (h1x : w1.all (fun c => ¬ c.toLower = 'x') = true) :
    restorePlaceholders (w0 ++ (' ' :: (markerStr 0 ++ (' ' :: w1))))
        [(markerStr 0, p)] =
      trimStr (collapseWs (wsStripEnd w0 ++
        ((' ' :: (p ++ [' '])) ++ w1.dropWhile isJsSpace))) := by
  have hM : markerStr 0 = 'X' :: ("PLACEHOLDERX0XPLACEHOLDERX".toList) := by decide
  have hstep : restorePlaceholders (w0 ++ (' ' :: (markerStr 0 ++ (' ' :: w1))))
      [(markerStr 0, p)] =
      trimStr (collapseWs (restoreOne (w0 ++ (' ' :: (markerStr 0 ++ (' ' :: w1))))
        (markerStr 0) p)) := rfl
  rw [hstep]
  have htest : testWsVarWs (markerStr 0)
      (w0 ++ (' ' :: (markerStr 0 ++ (' ' :: w1)))) = true := by
    apply testWsVarWs_append_of
    rw [hM]
    apply testWsVarWs_head
    obtain ⟨cns, hm⟩ :=
      matchWsVarWs_at ("PLACEHOLDERX0XPLACEHOLDERX".toList) w1 [' '] (by decide)
    rw [show (' ' :: (('X' :: ("PLACEHOLDERX0XPLACEHOLDERX".toList)) ++ (' ' :: w1))) =
      [' '] ++ (('X' :: ("PLACEHOLDERX0XPLACEHOLDERX".toList)) ++ (' ' :: w1)) from
      rfl]
    rw [hm]
    rfl
  have hfind : (markerVariations (markerStr 0)).find?
      (fun v => testWsVarWs v (w0 ++ (' ' :: (markerStr 0 ++ (' ' :: w1))))) =
      some (markerStr 0) := by
    rw [show markerVariations (markerStr 0) = (markerStr 0) ::
      [lowerStr (markerStr 0), (markerStr 0).map Char.toUpper,
        (markerStr 0).map (fun c => if c = 'X' then 'x' else c),
        (markerStr 0).dropLast, (markerStr 0).drop 1] from rfl]
    exact List.find?_cons_of_pos _ htest
  have hro : restoreOne (w0 ++ (' ' :: (markerStr 0 ++ (' ' :: w1))))
      (markerStr 0) p =
      replaceAllWsVarWs (markerStr 0) (' ' :: (p ++ [' ']))
        (w0 ++ (' ' :: (markerStr 0 ++ (' ' :: w1)))) := by
    unfold restoreOne
    rw [hfind]
  rw [hro, hM]
  rw [replaceAll_marked ("PLACEHOLDERX0XPLACEHOLDERX".toList)
    (' ' :: (p ++ [' '])) w1 h1x w0 h0x]
  rw [List.append_assoc]

/-- C5 is false as stated: the text consisting of the placeholder
followed by an exclamation mark round-trips to the placeholder, a space
and the exclamation mark - extractPlaceholders pads its marker with
spaces and restorePlaceholders keeps one of them - which differs from
the whitespace-normalized original (no interior space). -/
theorem claim_C5_counterexample :
    findPlaceholders ("\x7b\x7ba\x7d\x7d!".toList) ≠ [] ∧
    restorePlaceholders (extractPlaceholders ("\x7b\x7ba\x7d\x7d!".toList)).1
        (extractPlaceholders ("\x7b\x7ba\x7d\x7d!".toList)).2 ≠
      normalizeWs ("\x7b\x7ba\x7d\x7d!".toList) := by
  refine ⟨by decide, by decide⟩

/-- C5 (amended): for a text w0 ++ p ++ w1 holding exactly one
placeholder p (an anchored match of the placeholder pattern that
consumes p exactly), where the surrounding text contains no opening
brace and no letter x or X (so it can neither start another placeholder
nor collide with the marker), restorePlaceholders applied to the output
of extractPlaceholders returns the whitespace-normalization not of the
original text but of the text with the placeholder space-padded:
normalizeWs (w0 ++ ' ' ++ p ++ ' ' ++ w1). -/
theorem claim_C5_placeholder_roundtrip (w0 p w1 : Str)
    (h0 : w0.all (fun c => ¬ c = '{') = true)
    (h0x : w0.all (fun c => ¬ c.toLower = 'x') = true)
    (hp : matchPlaceholder (p ++ w1) = some (p, w1))
    (h1 : w1.all (fun c => ¬ c = '{') = true)
    (h1x : w1.all (fun c => ¬ c.toLower = 'x') = true) :
    restorePlaceholders (extractPlaceholders (w0 ++ (p ++ w1))).1
        (extractPlaceholders (w0 ++ (p ++ w1))).2 =
      normalizeWs (w0 ++ (' ' :: (p ++ (' ' :: w1)))) := by
  rw [extractPlaceholders_single w0 p w1 h0 hp h1]
  show restorePlaceholders (w0 ++ (' ' :: (markerStr 0 ++ (' ' :: w1))))
    [(markerStr 0, p)] = _
  rw [restore_single w0 p w1 h0x h1x]
  unfold normalizeWs
  rw [collapse_marked w0 p w1]

theorem claim_C5_placeholder_roundtrip_witness :
    ("Hello ".toList).all (fun c => ¬ c = '{') = true ∧
    ("Hello ".toList).all (fun c => ¬ c.toLower = 'x') = true ∧
    matchPlaceholder ("\x7b\x7bname\x7d\x7d".toList ++ ", welcome!".toList) =
      some ("\x7b\x7bname\x7d\x7d".toList, ", welcome!".toList) ∧
    restorePlaceholders
        (extractPlaceholders ("Hello ".toList ++
          ("\x7b\x7bname\x7d\x7d".toList ++ ", welcome!".toList))).1
        (extractPlaceholders ("Hello ".toList ++
          ("\x7b\x7bname\x7d\x7d".toList ++ ", welcome!".toList))).2 =
      normalizeWs ("Hello ".toList ++
        (' ' :: ("\x7b\x7bname\x7d\x7d".toList ++ (' ' :: ", welcome!".toList)))) :=
  ⟨by decide, by decide, by decide,
    claim_C5_placeholder_roundtrip ("Hello ".toList) ("\x7b\x7bname\x7d\x7d".toList)
      (", welcome!".toList) (by decide) (by decide) (by decide) (by decide)
      (by decide)⟩

end TranslateTs
